import Mathlib

/-!
Verification of the backend analysis core of the Bril teaching compiler:
a shallow embedding of graph-coloring register allocation
(`assignments/register_allocation.py`), the generic dataflow engine
(`assignments/lib/dataflow.py`), liveness analysis
(`assignments/lib/liveness_analysis.py`) and control-flow-graph
construction (`assignments/lib/control_flow_graph.py`), together with
theorems settling the specification's claims about them.

Python dictionaries are modelled as association lists (`List (String × α)`)
with in-place update; Python sets of strings are modelled as lists used up
to membership.  Iteration order over a Python set is modelled by list
order, which is one admissible iteration order.
-/

namespace Bril

/-! ### Association lists: the model of Python `dict` -/

/-- `m[k]` lookup returning `none` when the key is absent. -/
def lookupA {α : Type} (m : List (String × α)) (k : String) : Option α :=
  match m.find? (fun p => p.1 == k) with
  | some p => some p.2
  | none => none

/-- `k in m` (key test). -/
def hasKeyB {α : Type} (m : List (String × α)) (k : String) : Bool :=
  (lookupA m k).isSome

/-- `m[k] = v`: replace the value at `k` in place, appending when absent
(the position-preserving semantics of assignment into a Python dict). -/
def setVal {α : Type} : List (String × α) → String → α → List (String × α)
  | [], k, v => [(k, v)]
  | (k', v') :: t, k, v =>
    if k' = k then (k, v) :: t else (k', v') :: setVal t k v

/-- `del m[k]`. -/
def delKey {α : Type} : List (String × α) → String → List (String × α)
  | [], _ => []
  | (k', v') :: t, k => if k' = k then delKey t k else (k', v') :: delKey t k

/-- The key list of a dict. -/
def keysOf {α : Type} (m : List (String × α)) : List String :=
  m.map Prod.fst

@[simp] theorem lookupA_nil {α : Type} (k : String) :
    lookupA ([] : List (String × α)) k = none := rfl

theorem lookupA_cons {α : Type} (k' : String) (v' : α) (t : List (String × α))
    (k : String) :
    lookupA ((k', v') :: t) k = if k' = k then some v' else lookupA t k := by
  by_cases h : k' = k
  · simp [lookupA, List.find?, h]
  · have hb : (k' == k) = false := by simpa using h
    simp [lookupA, List.find?, hb, h]

theorem lookupA_setVal_self {α : Type} (m : List (String × α)) (k : String) (v : α) :
    lookupA (setVal m k v) k = some v := by
  induction m with
  | nil => simp [setVal, lookupA_cons]
  | cons p t ih =>
    obtain ⟨k', v'⟩ := p
    by_cases h : k' = k <;> simp [setVal, h, lookupA_cons, ih]

theorem lookupA_setVal_ne {α : Type} (m : List (String × α)) (k a : String) (v : α)
    (h : a ≠ k) : lookupA (setVal m k v) a = lookupA m a := by
  have hk : ¬ k = a := fun hh => h hh.symm
  induction m with
  | nil => simp [setVal, lookupA_cons, hk]
  | cons p t ih =>
    obtain ⟨k', v'⟩ := p
    by_cases hkk : k' = k
    · subst hkk
      simp [setVal, lookupA_cons, hk]
    · simp [setVal, hkk, lookupA_cons, ih]

theorem lookupA_delKey_self {α : Type} (m : List (String × α)) (k : String) :
    lookupA (delKey m k) k = none := by
  induction m with
  | nil => rfl
  | cons p t ih =>
    obtain ⟨k', v'⟩ := p
    by_cases h : k' = k <;> simp [delKey, h, lookupA_cons, ih]

theorem lookupA_delKey_ne {α : Type} (m : List (String × α)) (k a : String)
    (h : a ≠ k) : lookupA (delKey m k) a = lookupA m a := by
  induction m with
  | nil => rfl
  | cons p t ih =>
    obtain ⟨k', v'⟩ := p
    by_cases hkk : k' = k
    · subst hkk
      have hk : ¬ k' = a := fun hh => h hh.symm
      simp [delKey, lookupA_cons, hk, ih]
    · simp [delKey, hkk, lookupA_cons, ih]

/-! ### Lists as Python sets -/

/-- `s.add(x)` on a Python set, modelled on lists without duplication. -/
def insertR (l : List String) (x : String) : List String :=
  if x ∈ l then l else l ++ [x]

theorem mem_insertR (l : List String) (x a : String) :
    a ∈ insertR l x ↔ a ∈ l ∨ a = x := by
  unfold insertR
  by_cases h : x ∈ l
  · simp only [if_pos h]
    constructor
    · exact Or.inl
    · rintro (ha | rfl) <;> [exact ha; exact h]
  · simp [if_neg h]

theorem nodup_insertR (l : List String) (x : String) (h : l.Nodup) :
    (insertR l x).Nodup := by
  unfold insertR
  by_cases hx : x ∈ l
  · simpa [hx]
  · simp only [if_neg hx]
    simpa [List.nodup_append] using ⟨h, hx⟩

theorem mem_erase_iff_of_nodup (l : List String) (x a : String) (h : l.Nodup) :
    a ∈ l.erase x ↔ a ∈ l ∧ a ≠ x := by
  rw [List.Nodup.mem_erase_iff h]
  tauto

/-! ### Register allocation (`assignments/register_allocation.py`)

The interference graph is a vertex set (`List String` up to membership)
together with adjacency sets (`Edges`, a dict from vertex to neighbor set).
`allocate_k_registers` below is the part of the Python function after
`construct_interference_graph`, taking the graph directly.  Assertion
failures are modelled by `none`. -/

/-- Adjacency dict: vertex name to list of neighbors. -/
abbrev Edges := List (String × List String)

/-- `edges[v]` as read through `defaultdict(set)` without key creation. -/
def lookupEdges (E : Edges) (v : String) : List String :=
  (lookupA E v).getD []

/-- A bare `edges[v]` access on a `defaultdict` creates the key. -/
def touch (E : Edges) (v : String) : Edges :=
  if hasKeyB E v then E else E ++ [(v, [])]

/-- `edges[k].add(x)` on a `defaultdict(set)`. -/
def addAdj (E : Edges) (k x : String) : Edges :=
  setVal E k (insertR (lookupEdges E k) x)

/-- `remove_node`: drop `vertex` from the graph, removing it from each
neighbor's adjacency set and deleting its key; returns the new graph and
the removed neighbor set.  The opening `assert vertex in vertices` is
modelled by `none`; `set.remove` is modelled by `List.erase` (the element
is present whenever the adjacency sets are symmetric). -/
def remove_node (v : String) (vs : List String) (E : Edges) :
    Option ((List String × Edges) × List String) :=
  if v ∈ vs then
    let nbrs := lookupEdges E v
    let E1 := nbrs.foldl (fun acc u => setVal acc u ((lookupEdges acc u).erase v)) E
    some ((vs.erase v, delKey E1 v), nbrs)
  else none

/-- The edge-restoring loop of `add_node`: for each recorded neighbor
still present as a key, add the edge in both directions. -/
def restore_edges (v : String) (ce : List String) (E : Edges) : Edges :=
  ce.foldl (fun acc u =>
    if hasKeyB acc u then addAdj (addAdj acc v u) u v else acc) E

/-- `add_node`: re-insert `vertex`, restoring each recorded edge whose
far endpoint is still a key of the adjacency dict.  The opening
`assert vertex not in vertices` is modelled by `none`. -/
def add_node (v : String) (vs : List String) (E : Edges) (prev : List String) :
    Option (List String × Edges) :=
  if v ∈ vs then none
  else some (vs ++ [v], restore_edges v prev E)

/-- `vertex_degree`. -/
def vertex_degree (v : String) (E : Edges) : Nat :=
  if hasKeyB E v then (lookupEdges E v).length else 0

/-- `find_and_assign_open_color`: assign the lowest register in
`[0, k)` not used by any neighbor; `none` models the trailing
`assert False` when no register is free.  Reading `edges[vertex]` creates
the key (`touch`). -/
def find_and_assign_open_color (v : String) (vp : List (String × Nat)) (E : Edges)
    (k : Nat) : Option (Edges × List (String × Nat)) :=
  match (List.range k).find? (fun r =>
      !(((lookupEdges (touch E v) v).map (fun u => lookupA vp u)).contains (some r))) with
  | some r => some (touch E v, setVal vp v r)
  | none => none

/-- `number_of_neighbor_colors`: the number of distinct colors among the
already colored neighbors (the `None` entries are discarded).  Reading
`edges[vertex]` creates the key, so the touched dict is returned too. -/
def number_of_neighbor_colors (v : String) (vp : List (String × Nat)) (E : Edges) :
    Edges × Nat :=
  (touch E v,
    (((lookupEdges (touch E v) v).map (fun u => lookupA vp u)).filterMap id).dedup.length)

/-- The tag pushed with each removed vertex. -/
inductive Action where
  | tocolor : Action
  | tospill : Action
deriving DecidableEq, Repr

/-- The scan `for v in vertices: if vertex_degree(v, edges) < k: vertex = v`
starting from the sentinel `""`; the last qualifying vertex wins. -/
def pick_low (vs : List String) (E : Edges) (k : Nat) : String :=
  vs.foldl (fun acc v => if vertex_degree v E < k then v else acc) ""

/-- The max-degree scan starting from `("", 0)`, updating on strictly
larger degree. -/
def pick_max (vs : List String) (E : Edges) : String × Nat :=
  vs.foldl (fun acc v =>
    if acc.2 < vertex_degree v E then (v, vertex_degree v E) else acc) ("", 0)

theorem remove_node_some {v : String} {vs : List String} {E : Edges}
    {r : (List String × Edges) × List String}
    (h : remove_node v vs E = some r) :
    v ∈ vs ∧ r.1.1 = vs.erase v ∧ r.2 = lookupEdges E v := by
  unfold remove_node at h
  by_cases hv : v ∈ vs
  · simp only [if_pos hv, Option.some.injEq] at h
    subst h
    exact ⟨hv, rfl, rfl⟩
  · simp [hv] at h

/-- The body of the simplify/spill loop of `allocate_k_registers`,
structurally recursive on a fuel bound: each iteration removes one vertex,
so `vs.length` iterations always suffice and the fuel-exhaustion branch is
unreachable from `simplifyPhase`. -/
def simplifyGo (k : Nat) :
    Nat → List String → Edges → List (String × List String × Action) →
    Option (List (String × List String × Action) × Edges)
  | 0, vs, E, stack => if vs = [] then some (stack, E) else none
  | fuel + 1, vs, E, stack =>
    if vs = [] then some (stack, E)
    else
      let v := pick_low vs E k
      if v ≠ "" then
        match remove_node v vs E with
        | some ((vs1, E1), ce) =>
          simplifyGo k fuel vs1 E1 ((v, ce, Action.tocolor) :: stack)
        | none => none
      else
        let m := (pick_max vs E).1
        if m = "" then none
        else
          match remove_node m vs E with
          | some ((vs1, E1), ce) =>
            simplifyGo k fuel vs1 E1 ((m, ce, Action.tospill) :: stack)
          | none => none

/-- The simplify/spill loop of `allocate_k_registers`: repeatedly remove a
vertex (preferring the last scanned one of degree `< k`, falling back to
the maximum-degree vertex) and push it with its removed edges and a tag.
`none` models the `assert vertex_tuple[0]` failure.  Iteration order over
the Python vertex set is the list order. -/
def simplifyPhase (k : Nat) (vs : List String) (E : Edges)
    (stack : List (String × List String × Action)) :
    Option (List (String × List String × Action) × Edges) :=
  simplifyGo k vs.length vs E stack

/-- The select loop of `allocate_k_registers`: pop in reverse removal
order; a `to_color` vertex is re-inserted and colored; a `to_spill`
vertex is re-inserted optimistically, colored when fewer than `k`
distinct neighbor colors exist, and otherwise removed again and spilled. -/
def selectPhase (k : Nat) :
    List (String × List String × Action) → List String → Edges →
    List (String × Nat) → List String → Option (List String × List (String × Nat))
  | [], _vs, _E, vp, spills => some (spills, vp)
  | (v, ce, Action.tocolor) :: rest, vs, E, vp, spills =>
    match add_node v vs E ce with
    | none => none
    | some (vs1, E1) =>
      match find_and_assign_open_color v vp E1 k with
      | none => none
      | some (E2, vp2) => selectPhase k rest vs1 E2 vp2 spills
  | (v, ce, Action.tospill) :: rest, vs, E, vp, spills =>
    match add_node v vs E ce with
    | none => none
    | some (vs1, E1) =>
      let nc := number_of_neighbor_colors v vp E1
      if nc.2 < k then
        match find_and_assign_open_color v vp nc.1 k with
        | none => none
        | some (E3, vp3) => selectPhase k rest vs1 E3 vp3 spills
      else
        match remove_node v vs1 nc.1 with
        | none => none
        | some ((vs2, E3), _) => selectPhase k rest vs2 E3 vp (insertR spills v)

/-- `allocate_k_registers`, taking the interference graph directly
(the Python function first builds it from the CFG via
`construct_interference_graph`).  Returns the spill set and the coloring;
`none` models any assertion failure on the way. -/
def allocate_k_registers (vertices : List String) (edges : Edges) (k : Nat) :
    Option (List String × List (String × Nat)) :=
  match simplifyPhase k vertices edges [] with
  | none => none
  | some (stack, E1) => selectPhase k stack [] E1 [] []

/-! ### Lemmas about the edge-dict operations -/

theorem lookupA_append {α : Type} (m m' : List (String × α)) (a : String) :
    lookupA (m ++ m') a =
      match lookupA m a with
      | some v => some v
      | none => lookupA m' a := by
  induction m with
  | nil => rfl
  | cons p t ih =>
    obtain ⟨k', v'⟩ := p
    by_cases h : k' = a <;> simp [lookupA_cons, h, ih]

theorem lookupEdges_setVal_self (E : Edges) (k : String) (l : List String) :
    lookupEdges (setVal E k l) k = l := by
  simp [lookupEdges, lookupA_setVal_self]

theorem lookupEdges_setVal_ne (E : Edges) (k a : String) (l : List String)
    (h : a ≠ k) : lookupEdges (setVal E k l) a = lookupEdges E a := by
  simp [lookupEdges, lookupA_setVal_ne _ _ _ _ h]

theorem hasKeyB_setVal (E : Edges) (k : String) (l : List String) (a : String) :
    hasKeyB (setVal E k l) a = true ↔ (a = k ∨ hasKeyB E a = true) := by
  by_cases h : a = k
  · subst h
    simp [hasKeyB, lookupA_setVal_self]
  · simp [hasKeyB, lookupA_setVal_ne _ _ _ _ h, h]

theorem lookupEdges_delKey_self (E : Edges) (k : String) :
    lookupEdges (delKey E k) k = [] := by
  simp [lookupEdges, lookupA_delKey_self]

theorem lookupEdges_delKey_ne (E : Edges) (k a : String) (h : a ≠ k) :
    lookupEdges (delKey E k) a = lookupEdges E a := by
  simp [lookupEdges, lookupA_delKey_ne _ _ _ h]

theorem hasKeyB_delKey (E : Edges) (k a : String) :
    hasKeyB (delKey E k) a = true ↔ (hasKeyB E a = true ∧ a ≠ k) := by
  by_cases h : a = k
  · subst h
    simp [hasKeyB, lookupA_delKey_self]
  · simp [hasKeyB, lookupA_delKey_ne _ _ _ h, h]

theorem lookupEdges_touch (E : Edges) (v a : String) :
    lookupEdges (touch E v) a = lookupEdges E a := by
  unfold touch
  by_cases hk : hasKeyB E v
  · simp [hk]
  · simp only [hk, if_neg]
    by_cases h : a = v
    · subst h
      have : lookupA E a = none := by
        simp only [hasKeyB, Option.isSome] at hk
        cases hl : lookupA E a
        · rfl
        · rw [hl] at hk; simp at hk
      simp [lookupEdges, lookupA_append, this, lookupA_cons]
    · have hva : ¬ v = a := fun hh => h hh.symm
      cases hl : lookupA E a
      · simp [lookupEdges, lookupA_append, hl, lookupA_cons, hva]
      · simp [lookupEdges, lookupA_append, hl]

theorem hasKeyB_touch (E : Edges) (v a : String) :
    hasKeyB (touch E v) a = true ↔ (hasKeyB E a = true ∨ a = v) := by
  unfold touch
  by_cases hk : hasKeyB E v
  · simp only [hk, if_pos]
    constructor
    · exact Or.inl
    · rintro (h | rfl) <;> assumption
  · simp only [hk, if_neg]
    by_cases h : a = v
    · subst h
      have : lookupA E a = none := by
        simp only [hasKeyB, Option.isSome] at hk
        cases hl : lookupA E a
        · rfl
        · rw [hl] at hk; simp at hk
      simp [hasKeyB, lookupA_append, this, lookupA_cons]
    · have hva : ¬ v = a := fun hh => h hh.symm
      cases hl : lookupA E a
      · simp [hasKeyB, lookupA_append, hl, lookupA_cons, hva, h]
      · simp [hasKeyB, lookupA_append, hl, h]

theorem lookupEdges_addAdj_self (E : Edges) (k x : String) :
    lookupEdges (addAdj E k x) k = insertR (lookupEdges E k) x := by
  simp [addAdj, lookupEdges_setVal_self]

theorem lookupEdges_addAdj_ne (E : Edges) (k x a : String) (h : a ≠ k) :
    lookupEdges (addAdj E k x) a = lookupEdges E a :=
  lookupEdges_setVal_ne _ _ _ _ h

theorem hasKeyB_addAdj (E : Edges) (k x a : String) :
    hasKeyB (addAdj E k x) a = true ↔ (a = k ∨ hasKeyB E a = true) :=
  hasKeyB_setVal _ _ _ _

theorem insertR_eq_append (l : List String) (x : String) (h : x ∉ l) :
    insertR l x = l ++ [x] := by
  simp [insertR, h]

theorem foldl_erase_lookup (v : String) (nbrs : List String) (E : Edges)
    (hnd : nbrs.Nodup) (a : String) :
    lookupEdges (nbrs.foldl (fun acc u => setVal acc u ((lookupEdges acc u).erase v)) E) a
      = if a ∈ nbrs then (lookupEdges E a).erase v else lookupEdges E a := by
  induction nbrs generalizing E with
  | nil => simp
  | cons u rest ih =>
    have hu : u ∉ rest := (List.nodup_cons.mp hnd).1
    have hrest : rest.Nodup := (List.nodup_cons.mp hnd).2
    simp only [List.foldl_cons]
    rw [ih _ hrest]
    by_cases hau : a = u
    · subst hau
      simp [hu, lookupEdges_setVal_self]
    · by_cases har : a ∈ rest
      · simp [har, hau, lookupEdges_setVal_ne _ _ _ _ hau, List.mem_cons]
      · simp [har, hau, List.mem_cons, lookupEdges_setVal_ne _ _ _ _ hau]

theorem foldl_erase_hasKey (v : String) (nbrs : List String) (E : Edges) (a : String) :
    hasKeyB (nbrs.foldl (fun acc u => setVal acc u ((lookupEdges acc u).erase v)) E) a = true
      ↔ (hasKeyB E a = true ∨ a ∈ nbrs) := by
  induction nbrs generalizing E with
  | nil => simp
  | cons u rest ih =>
    simp only [List.foldl_cons]
    rw [ih, hasKeyB_setVal]
    simp only [List.mem_cons]
    tauto

theorem remove_node_lookup {v : String} {vs : List String} {E : Edges}
    {vs1 : List String} {E1 : Edges} {ce : List String}
    (h : remove_node v vs E = some ((vs1, E1), ce))
    (hnd : (lookupEdges E v).Nodup) (a : String) :
    lookupEdges E1 a = if a = v then [] else
      if a ∈ lookupEdges E v then (lookupEdges E a).erase v else lookupEdges E a := by
  unfold remove_node at h
  by_cases hv : v ∈ vs
  · simp only [if_pos hv, Option.some.injEq, Prod.mk.injEq] at h
    obtain ⟨⟨h1, h2⟩, h3⟩ := h
    subst h2
    by_cases hav : a = v
    · subst hav
      simp [lookupEdges_delKey_self]
    · rw [if_neg hav, lookupEdges_delKey_ne _ _ _ hav, foldl_erase_lookup v _ _ hnd]
  · simp [hv] at h

theorem remove_node_hasKey {v : String} {vs : List String} {E : Edges}
    {vs1 : List String} {E1 : Edges} {ce : List String}
    (h : remove_node v vs E = some ((vs1, E1), ce)) (a : String) :
    hasKeyB E1 a = true ↔
      ((hasKeyB E a = true ∨ a ∈ lookupEdges E v) ∧ a ≠ v) := by
  unfold remove_node at h
  by_cases hv : v ∈ vs
  · simp only [if_pos hv, Option.some.injEq, Prod.mk.injEq] at h
    obtain ⟨⟨h1, h2⟩, h3⟩ := h
    subst h2
    rw [hasKeyB_delKey, foldl_erase_hasKey]
  · simp [hv] at h

theorem bool_eq_of_iff {b c : Bool} (h : b = true ↔ c = true) : b = c := by
  cases b <;> cases c <;> simp_all

/-- Full characterization of the `add_node` edge-restoring fold. -/
theorem restore_edges_spec (v : String) (ce : List String) (E : Edges)
    (hnd : ce.Nodup) (hvce : v ∉ ce)
    (hvE : ∀ u ∈ ce, v ∉ lookupEdges E u)
    (hceE : ∀ u ∈ ce, u ∉ lookupEdges E v) :
    (lookupEdges (restore_edges v ce E) v
        = lookupEdges E v ++ ce.filter (fun u => hasKeyB E u))
    ∧ (∀ a, a ≠ v → lookupEdges (restore_edges v ce E) a =
        if a ∈ ce ∧ hasKeyB E a = true then lookupEdges E a ++ [v] else lookupEdges E a)
    ∧ (∀ a, hasKeyB (restore_edges v ce E) a = true ↔
        (hasKeyB E a = true ∨ (a = v ∧ ce.any (fun u => hasKeyB E u) = true))) := by
  induction ce generalizing E with
  | nil =>
    refine ⟨by simp [restore_edges], fun a ha => by simp [restore_edges], fun a => ?_⟩
    simp [restore_edges]
  | cons u rest ih =>
    have hu : u ∉ rest := (List.nodup_cons.mp hnd).1
    have hrest : rest.Nodup := (List.nodup_cons.mp hnd).2
    have hvrest : v ∉ rest := fun hh => hvce (List.mem_cons_of_mem _ hh)
    have huv : u ≠ v := fun hh => hvce (hh ▸ List.mem_cons_self u rest)
    have hstep : restore_edges v (u :: rest) E =
        restore_edges v rest
          (if hasKeyB E u then addAdj (addAdj E v u) u v else E) := by
      simp only [restore_edges, List.foldl_cons]
    by_cases hKu : hasKeyB E u = true
    · -- the edge (v, u) is restored in both directions
      set E' := addAdj (addAdj E v u) u v with hE'
      have huE : u ∉ lookupEdges E v := hceE u (List.mem_cons_self u rest)
      have hvEu : v ∉ lookupEdges E u := hvE u (List.mem_cons_self u rest)
      have f1 : lookupEdges E' v = lookupEdges E v ++ [u] := by
        rw [hE', lookupEdges_addAdj_ne _ _ _ _ (fun hh => huv hh.symm),
          lookupEdges_addAdj_self, insertR_eq_append _ _ huE]
      have f2 : lookupEdges E' u = lookupEdges E u ++ [v] := by
        rw [hE', lookupEdges_addAdj_self, lookupEdges_addAdj_ne _ _ _ _ huv,
          insertR_eq_append _ _ hvEu]
      have f3 : ∀ a, a ≠ v → a ≠ u → lookupEdges E' a = lookupEdges E a := by
        intro a hav hau
        rw [hE', lookupEdges_addAdj_ne _ _ _ _ hau, lookupEdges_addAdj_ne _ _ _ _ hav]
      have f4 : ∀ a, hasKeyB E' a = true ↔ (a = v ∨ hasKeyB E a = true) := by
        intro a
        rw [hE', hasKeyB_addAdj, hasKeyB_addAdj]
        constructor
        · rintro (rfl | h)
          · exact Or.inr hKu
          · exact h
        · exact fun h => Or.inr h
      have f4' : ∀ a, a ≠ v → hasKeyB E' a = hasKeyB E a := by
        intro a hav
        refine bool_eq_of_iff ?_
        rw [f4 a]
        constructor
        · rintro (rfl | h)
          · exact absurd rfl hav
          · exact h
        · exact Or.inr
      have ihE := ih (E := E') hrest hvrest
        (fun w hw => by
          rcases eq_or_ne w u with rfl | hwu
          · exact absurd hw hu
          · rcases eq_or_ne w v with rfl | hwv
            · exact absurd hw hvrest
            · rw [f3 w hwv hwu]
              exact hvE w (List.mem_cons_of_mem _ hw))
        (fun w hw => by
          rw [f1]
          intro hmem
          rcases List.mem_append.mp hmem with hmem | hmem
          · exact hceE w (List.mem_cons_of_mem _ hw) hmem
          · have : w = u := by simpa using hmem
            exact hu (this ▸ hw))
      obtain ⟨c1, c2, c3⟩ := ihE
      have hfilter : rest.filter (fun w => hasKeyB E' w) =
          rest.filter (fun w => hasKeyB E w) := by
        apply List.filter_congr
        intro w hw
        exact f4' w (fun hh => hvrest (hh ▸ hw))
      refine ⟨?_, ?_, ?_⟩
      · rw [hstep, if_pos hKu, c1, f1, hfilter]
        simp [List.filter_cons, hKu]
      · intro a hav
        rw [hstep, if_pos hKu, c2 a hav]
        rcases eq_or_ne a u with rfl | hau
        · simp only [hu, false_and, if_neg, if_false]
          rw [f2]
          simp [List.mem_cons, hKu]
        · rw [f3 a hav hau, f4' a hav]
          by_cases har : a ∈ rest
          · simp [har, hau, List.mem_cons]
          · simp [har, hau, List.mem_cons]
      · intro a
        rw [hstep, if_pos hKu, c3 a, f4 a]
        have hany : rest.any (fun w => hasKeyB E' w) = rest.any (fun w => hasKeyB E w) := by
          refine bool_eq_of_iff ?_
          simp only [List.any_eq_true]
          constructor
          · rintro ⟨w, hw, hkey⟩
            refine ⟨w, hw, ?_⟩
            rw [← f4' w (fun hh => hvrest (hh ▸ hw))]
            exact hkey
          · rintro ⟨w, hw, hkey⟩
            refine ⟨w, hw, ?_⟩
            rw [f4' w (fun hh => hvrest (hh ▸ hw))]
            exact hkey
        rw [hany]
        simp only [List.any_cons, hKu, Bool.true_or]
        tauto
    · -- the far endpoint was spilled: the edge is not restored
      have hKu' : hasKeyB E u = false := by
        cases hc : hasKeyB E u
        · rfl
        · exact absurd hc hKu
      have ihE := ih (E := E) hrest hvrest
        (fun w hw => hvE w (List.mem_cons_of_mem _ hw))
        (fun w hw => hceE w (List.mem_cons_of_mem _ hw))
      obtain ⟨c1, c2, c3⟩ := ihE
      refine ⟨?_, ?_, ?_⟩
      · rw [hstep, if_neg hKu, c1]
        simp [List.filter_cons, hKu']
      · intro a hav
        rw [hstep, if_neg hKu, c2 a hav]
        rcases eq_or_ne a u with rfl | hau
        · simp [hu, hKu', List.mem_cons]
        · by_cases har : a ∈ rest
          · simp [har, hau, List.mem_cons]
          · simp [har, hau, List.mem_cons]
      · intro a
        rw [hstep, if_neg hKu, c3 a]
        simp [List.any_cons, hKu']

/-! ### Invariants of the allocator -/

theorem lookupEdges_of_not_hasKey (E : Edges) (v : String)
    (h : hasKeyB E v = false) : lookupEdges E v = [] := by
  unfold hasKeyB at h
  unfold lookupEdges
  cases hl : lookupA E v
  · rfl
  · rw [hl] at h
    simp at h

theorem vertex_degree_eq_length (v : String) (E : Edges) :
    vertex_degree v E = (lookupEdges E v).length := by
  unfold vertex_degree
  cases h : hasKeyB E v
  · simp [lookupEdges_of_not_hasKey E v h]
  · simp

/-- Well-formedness of the input interference graph: a vertex set without
duplicates and symmetric, irreflexive adjacency sets over it. -/
structure GoodGraph (vs0 : List String) (E0 : Edges) : Prop where
  nodup : vs0.Nodup
  valNodup : ∀ a, (lookupEdges E0 a).Nodup
  sym : ∀ a b, b ∈ lookupEdges E0 a → a ∈ lookupEdges E0 b
  irrefl : ∀ a, a ∉ lookupEdges E0 a
  support : ∀ a b, b ∈ lookupEdges E0 a → a ∈ vs0 ∧ b ∈ vs0
  keys : ∀ a, hasKeyB E0 a = true → a ∈ vs0

/-- State invariant of the simplify/spill loop: the live graph is the
input graph induced on the remaining vertices. -/
structure SimpInv (vs0 : List String) (E0 : Edges) (vs : List String) (E : Edges) :
    Prop where
  sub : ∀ x ∈ vs, x ∈ vs0
  nodup : vs.Nodup
  adj : ∀ a b, b ∈ lookupEdges E a ↔ (a ∈ vs ∧ b ∈ vs ∧ b ∈ lookupEdges E0 a)
  valNodup : ∀ a, (lookupEdges E a).Nodup
  keys : ∀ a, hasKeyB E a = true → a ∈ vs

/-- What the simplify phase guarantees about the stack handed to the
select phase, reading from the head (popped first): each entry's recorded
edge set is exactly its input-graph neighbors among the entries popped
before it (`P`), and a to-color entry had degree `< k` when removed. -/
def GoodStack (E0 : Edges) (k : Nat) :
    List (String × List String × Action) → List String → Prop
  | [], _ => True
  | (v, ce, a) :: rest, P =>
      v ∉ P ∧ ce.Nodup ∧ (∀ b, b ∈ ce ↔ (b ∈ P ∧ b ∈ lookupEdges E0 v)) ∧
      (a = Action.tocolor → ce.length < k) ∧ GoodStack E0 k rest (v :: P)

theorem GoodStack_congr (E0 : Edges) (k : Nat) :
    ∀ (s : List (String × List String × Action)) (P Q : List String),
    (∀ x, x ∈ P ↔ x ∈ Q) → GoodStack E0 k s P → GoodStack E0 k s Q := by
  intro s
  induction s with
  | nil => intro P Q _ _; trivial
  | cons e rest ih =>
    intro P Q hpq h
    obtain ⟨v, ce, a⟩ := e
    obtain ⟨h1, h2, h3, h4, h5⟩ := h
    refine ⟨fun hq => h1 ((hpq v).mpr hq), h2, fun b => ?_, h4, ?_⟩
    · rw [h3 b]
      rw [hpq b]
    · refine ih (v :: P) (v :: Q) (fun x => ?_) h5
      simp [List.mem_cons, hpq x]

/-- Removing a vertex of the live graph preserves the simplify invariant
and records exactly its current neighbors. -/
theorem SimpInv_remove {vs0 : List String} {E0 : Edges} (g : GoodGraph vs0 E0)
    {vs : List String} {E : Edges} {v : String}
    {vs1 : List String} {E1 : Edges} {ce : List String}
    (inv : SimpInv vs0 E0 vs E)
    (h : remove_node v vs E = some ((vs1, E1), ce)) :
    vs1 = vs.erase v ∧ ce = lookupEdges E v ∧ v ∈ vs ∧
    SimpInv vs0 E0 vs1 E1 ∧ ce.Nodup ∧
    (∀ b, b ∈ ce ↔ (b ∈ vs1 ∧ b ∈ lookupEdges E0 v)) := by
  obtain ⟨hv, hvs1, hce⟩ := remove_node_some h
  simp only at hvs1 hce
  have hlook := remove_node_lookup h (inv.valNodup v)
  have hkey := remove_node_hasKey h
  have hmem_vs1 : ∀ x, x ∈ vs1 ↔ (x ∈ vs ∧ x ≠ v) := by
    intro x
    rw [hvs1]
    exact mem_erase_iff_of_nodup _ _ _ inv.nodup
  have hEv_mem : ∀ b, b ∈ lookupEdges E v ↔ (v ∈ vs ∧ b ∈ vs ∧ b ∈ lookupEdges E0 v) :=
    fun b => inv.adj v b
  refine ⟨hvs1, hce, hv, ?_, ?_, ?_⟩
  · refine ⟨?_, ?_, ?_, ?_, ?_⟩
    · intro x hx
      exact inv.sub x ((hmem_vs1 x).mp hx).1
    · rw [hvs1]
      exact inv.nodup.erase v
    · intro a b
      rw [hlook a]
      by_cases hav : a = v
      · subst hav
        rw [if_pos rfl]
        simp only [List.not_mem_nil, false_iff]
        rintro ⟨ha, -, -⟩
        exact ((hmem_vs1 a).mp ha).2 rfl
      · rw [if_neg hav]
        by_cases haE : a ∈ lookupEdges E v
        · rw [if_pos haE]
          rw [mem_erase_iff_of_nodup _ _ _ (inv.valNodup a), inv.adj a b,
            hmem_vs1 a, hmem_vs1 b]
          constructor
          · rintro ⟨⟨haa, hbb, hadj⟩, hbv⟩
            exact ⟨⟨haa, hav⟩, ⟨hbb, hbv⟩, hadj⟩
          · rintro ⟨⟨haa, -⟩, ⟨hbb, hbv⟩, hadj⟩
            exact ⟨⟨haa, hbb, hadj⟩, hbv⟩
        · rw [if_neg haE]
          rw [inv.adj a b, hmem_vs1 a, hmem_vs1 b]
          constructor
          · rintro ⟨haa, hbb, hadj⟩
            refine ⟨⟨haa, hav⟩, ⟨hbb, ?_⟩, hadj⟩
            rintro rfl
            exact haE ((hEv_mem a).mpr ⟨hbb, haa, g.sym a b hadj⟩)
          · rintro ⟨⟨haa, -⟩, ⟨hbb, -⟩, hadj⟩
            exact ⟨haa, hbb, hadj⟩
    · intro a
      rw [hlook a]
      by_cases hav : a = v
      · simp [hav]
      · rw [if_neg hav]
        by_cases haE : a ∈ lookupEdges E v
        · rw [if_pos haE]
          exact (inv.valNodup a).erase v
        · rw [if_neg haE]
          exact inv.valNodup a
    · intro a ha
      rcases (hkey a).mp ha with ⟨hor, hne⟩
      rw [hmem_vs1 a]
      rcases hor with hk | hm
      · exact ⟨inv.keys a hk, hne⟩
      · exact ⟨((hEv_mem a).mp hm).2.1, hne⟩
  · rw [hce]
    exact inv.valNodup v
  · intro b
    rw [hce, hEv_mem b, hmem_vs1 b]
    constructor
    · rintro ⟨-, hbb, hadj⟩
      refine ⟨⟨hbb, ?_⟩, hadj⟩
      rintro rfl
      exact g.irrefl b hadj
    · rintro ⟨⟨hbb, -⟩, hadj⟩
      exact ⟨hv, hbb, hadj⟩

/-! ### The vertex-selection scans -/

theorem pick_low_aux (E : Edges) (k : Nat) :
    ∀ (vs : List String) (acc : String),
      vs.foldl (fun acc v => if vertex_degree v E < k then v else acc) acc = acc ∨
      (vs.foldl (fun acc v => if vertex_degree v E < k then v else acc) acc ∈ vs ∧
        vertex_degree
          (vs.foldl (fun acc v => if vertex_degree v E < k then v else acc) acc) E < k) := by
  intro vs
  induction vs with
  | nil => intro acc; exact Or.inl rfl
  | cons w rest ih =>
    intro acc
    simp only [List.foldl_cons]
    by_cases hw : vertex_degree w E < k
    · rw [if_pos hw]
      rcases ih w with h | ⟨h1, h2⟩
      · exact Or.inr ⟨by rw [h]; exact List.mem_cons_self w rest, by rw [h]; exact hw⟩
      · exact Or.inr ⟨List.mem_cons_of_mem _ h1, h2⟩
    · rw [if_neg hw]
      rcases ih acc with h | ⟨h1, h2⟩
      · exact Or.inl h
      · exact Or.inr ⟨List.mem_cons_of_mem _ h1, h2⟩

theorem pick_low_spec (vs : List String) (E : Edges) (k : Nat) :
    pick_low vs E k = "" ∨
    (pick_low vs E k ∈ vs ∧ vertex_degree (pick_low vs E k) E < k) :=
  pick_low_aux E k vs ""

theorem pick_low_keep_ne (E : Edges) (k : Nat) :
    ∀ (vs : List String) (acc : String), acc ≠ "" → (∀ v ∈ vs, v ≠ "") →
      vs.foldl (fun acc v => if vertex_degree v E < k then v else acc) acc ≠ "" := by
  intro vs
  induction vs with
  | nil => intro acc h _; exact h
  | cons w rest ih =>
    intro acc h hnames
    simp only [List.foldl_cons]
    by_cases hw : vertex_degree w E < k
    · rw [if_pos hw]
      exact ih w (hnames w (List.mem_cons_self w rest))
        (fun v hv => hnames v (List.mem_cons_of_mem _ hv))
    · rw [if_neg hw]
      exact ih acc h (fun v hv => hnames v (List.mem_cons_of_mem _ hv))

theorem pick_low_ne_empty (E : Edges) (k : Nat) :
    ∀ (vs : List String), (∀ u ∈ vs, u ≠ "") →
    ∀ v ∈ vs, vertex_degree v E < k →
    vs.foldl (fun acc w => if vertex_degree w E < k then w else acc) "" ≠ "" := by
  intro vs
  induction vs with
  | nil => intro _ v hv; cases hv
  | cons w rest ih =>
    intro hnames v hv hdeg
    simp only [List.foldl_cons]
    by_cases hw : vertex_degree w E < k
    · rw [if_pos hw]
      exact pick_low_keep_ne E k rest w (hnames w (List.mem_cons_self w rest))
        (fun u hu => hnames u (List.mem_cons_of_mem _ hu))
    · rw [if_neg hw]
      rcases List.mem_cons.mp hv with rfl | hv'
      · exact absurd hdeg hw
      · exact ih (fun u hu => hnames u (List.mem_cons_of_mem _ hu)) v hv' hdeg

/-- With nonempty vertex names, the scan returns `""` only when no vertex
qualifies. -/
theorem pick_low_empty (vs : List String) (E : Edges) (k : Nat)
    (hnames : ∀ v ∈ vs, v ≠ "") (h : pick_low vs E k = "") :
    ∀ v ∈ vs, ¬ vertex_degree v E < k := by
  intro v hv hdeg
  exact pick_low_ne_empty E k vs hnames v hv hdeg h

theorem pick_max_aux (E : Edges) :
    ∀ (vs : List String) (acc : String × Nat),
      (vs.foldl (fun acc v =>
          if acc.2 < vertex_degree v E then (v, vertex_degree v E) else acc) acc = acc ∨
        (vs.foldl (fun acc v =>
          if acc.2 < vertex_degree v E then (v, vertex_degree v E) else acc) acc).1 ∈ vs) ∧
      acc.2 ≤ (vs.foldl (fun acc v =>
          if acc.2 < vertex_degree v E then (v, vertex_degree v E) else acc) acc).2 ∧
      (∀ v ∈ vs, vertex_degree v E ≤ (vs.foldl (fun acc v =>
          if acc.2 < vertex_degree v E then (v, vertex_degree v E) else acc) acc).2) := by
  intro vs
  induction vs with
  | nil =>
    intro acc
    exact ⟨Or.inl rfl, le_refl _, fun v hv => absurd hv (List.not_mem_nil v)⟩
  | cons w rest ih =>
    intro acc
    simp only [List.foldl_cons]
    by_cases hw : acc.2 < vertex_degree w E
    · rw [if_pos hw]
      obtain ⟨hmem, hge, hall⟩ := ih (w, vertex_degree w E)
      refine ⟨?_, le_trans (le_of_lt hw) hge, ?_⟩
      · rcases hmem with h | h
        · exact Or.inr (by rw [h]; exact List.mem_cons_self w rest)
        · exact Or.inr (List.mem_cons_of_mem _ h)
      · intro v hv
        rcases List.mem_cons.mp hv with rfl | hv'
        · exact hge
        · exact hall v hv'
    · rw [if_neg hw]
      obtain ⟨hmem, hge, hall⟩ := ih acc
      refine ⟨?_, hge, ?_⟩
      · rcases hmem with h | h
        · exact Or.inl h
        · exact Or.inr (List.mem_cons_of_mem _ h)
      · intro v hv
        rcases List.mem_cons.mp hv with rfl | hv'
        · exact le_trans (le_of_not_lt hw) hge
        · exact hall v hv'

/-- When some vertex has positive degree, the max-degree scan returns a
member of the vertex set. -/
theorem pick_max_mem (vs : List String) (E : Edges)
    (hpos : ∃ v ∈ vs, 0 < vertex_degree v E) : (pick_max vs E).1 ∈ vs := by
  obtain ⟨v, hv, hdeg⟩ := hpos
  obtain ⟨hmem, -, hall⟩ := pick_max_aux E vs ("", 0)
  rcases hmem with h | h
  · exfalso
    have := hall v hv
    rw [show vs.foldl (fun acc v =>
        if acc.2 < vertex_degree v E then (v, vertex_degree v E) else acc) ("", 0)
        = pick_max vs E from rfl] at this h
    rw [h] at this
    omega
  · exact h

/-! ### Specification of the simplify phase -/

/-- A step of the simplify loop extends `GoodStack` and keeps `SimpInv`. -/
theorem simplify_step {vs0 : List String} {E0 : Edges} {k : Nat}
    (g : GoodGraph vs0 E0)
    {vs : List String} {E : Edges} {v : String}
    {vs1 : List String} {E1 : Edges} {ce : List String}
    {stack : List (String × List String × Action)} (a : Action)
    (inv : SimpInv vs0 E0 vs E) (gs : GoodStack E0 k stack vs)
    (h : remove_node v vs E = some ((vs1, E1), ce))
    (hcol : a = Action.tocolor → vertex_degree v E < k) :
    SimpInv vs0 E0 vs1 E1 ∧ GoodStack E0 k ((v, ce, a) :: stack) vs1 ∧
    vs1.length + 1 = vs.length := by
  obtain ⟨hvs1, hceq, hv, inv1, hnd, hiff⟩ := SimpInv_remove g inv h
  have hmem_vs1 : ∀ x, x ∈ vs1 ↔ (x ∈ vs ∧ x ≠ v) := by
    intro x
    rw [hvs1]
    exact mem_erase_iff_of_nodup _ _ _ inv.nodup
  refine ⟨inv1, ⟨?_, hnd, hiff, ?_, ?_⟩, ?_⟩
  · intro hmem
    exact ((hmem_vs1 v).mp hmem).2 rfl
  · intro ha
    have := hcol ha
    rw [vertex_degree_eq_length, ← hceq] at this
    exact this
  · refine GoodStack_congr E0 k stack vs (v :: vs1) (fun x => ?_) gs
    rw [List.mem_cons, hmem_vs1 x]
    constructor
    · intro hx
      rcases eq_or_ne x v with rfl | hxv
      · exact Or.inl rfl
      · exact Or.inr ⟨hx, hxv⟩
    · rintro (rfl | ⟨hx, -⟩)
      · exact hv
      · exact hx
  · rw [hvs1, List.length_erase_of_mem hv]
    have : 0 < vs.length := List.length_pos.mpr (List.ne_nil_of_mem hv)
    omega

/-- The simplify loop, run to completion, yields a stack satisfying
`GoodStack` over the empty popped set and an edge dict with no keys. -/
theorem simplify_spec {vs0 : List String} {E0 : Edges} {k : Nat}
    (g : GoodGraph vs0 E0) :
    ∀ (n : Nat) (vs : List String) (E : Edges)
      (stack stack1 : List (String × List String × Action)) (E1 : Edges),
      SimpInv vs0 E0 vs E → GoodStack E0 k stack vs →
      simplifyGo k n vs E stack = some (stack1, E1) →
      GoodStack E0 k stack1 [] ∧ ∀ a, hasKeyB E1 a = false := by
  intro n
  induction n with
  | zero =>
    intro vs E stack stack1 E1 inv gs hrun
    by_cases hvs : vs = []
    · subst hvs
      rw [show simplifyGo k 0 [] E stack = some (stack, E) from rfl] at hrun
      simp only [Option.some.injEq, Prod.mk.injEq] at hrun
      obtain ⟨rfl, rfl⟩ := hrun
      refine ⟨gs, fun a => ?_⟩
      cases hk : hasKeyB E a
      · rfl
      · exact absurd (inv.keys a hk) (List.not_mem_nil a)
    · rw [show simplifyGo k 0 vs E stack = if vs = [] then some (stack, E) else none
          from rfl, if_neg hvs] at hrun
      exact absurd hrun (by simp)
  | succ n ih =>
    intro vs E stack stack1 E1 inv gs hrun
    by_cases hvs : vs = []
    · subst hvs
      rw [show simplifyGo k (n + 1) [] E stack = some (stack, E) from rfl] at hrun
      simp only [Option.some.injEq, Prod.mk.injEq] at hrun
      obtain ⟨rfl, rfl⟩ := hrun
      refine ⟨gs, fun a => ?_⟩
      cases hk : hasKeyB E a
      · rfl
      · exact absurd (inv.keys a hk) (List.not_mem_nil a)
    · rw [simplifyGo] at hrun
      simp only [if_neg hvs] at hrun
      by_cases hvne : pick_low vs E k = ""
      · rw [if_neg (not_not_intro hvne)] at hrun
        by_cases hm : (pick_max vs E).1 = ""
        · rw [if_pos hm] at hrun
          exact absurd hrun (by simp)
        · rw [if_neg hm] at hrun
          cases hrm : remove_node (pick_max vs E).1 vs E with
          | none => rw [hrm] at hrun; exact absurd hrun (by simp)
          | some r =>
            obtain ⟨⟨vs1', E1'⟩, ce⟩ := r
            rw [hrm] at hrun
            obtain ⟨inv1, gs1, hlen1⟩ := simplify_step g Action.tospill inv gs hrm
              (fun hh => by cases hh)
            exact ih vs1' E1' _ stack1 E1 inv1 gs1 hrun
      · rw [if_pos hvne] at hrun
        cases hrm : remove_node (pick_low vs E k) vs E with
        | none => rw [hrm] at hrun; exact absurd hrun (by simp)
        | some r =>
          obtain ⟨⟨vs1', E1'⟩, ce⟩ := r
          rw [hrm] at hrun
          obtain ⟨inv1, gs1, hlen1⟩ := simplify_step g Action.tocolor inv gs hrm
            (fun _ => by
              rcases pick_low_spec vs E k with h | ⟨-, h⟩
              · exact absurd h hvne
              · exact h)
          exact ih vs1' E1' _ stack1 E1 inv1 gs1 hrun

/-! ### Lemmas for the select phase -/

theorem touch_of_hasKey (E : Edges) (v : String) (h : hasKeyB E v = true) :
    touch E v = E := by
  simp [touch, h]

theorem erase_append_self (l : List String) (x : String) (h : x ∉ l) :
    (l ++ [x]).erase x = l := by
  simp [List.erase_append_right _ h]

theorem mem_append_singleton (l : List String) (x a : String) :
    a ∈ l ++ [x] ↔ a ∈ l ∨ a = x := by
  simp

/-- Any collection of fewer than `k` colors misses some register in
`[0, k)`. -/
theorem exists_free_color (colors : List Nat) (k : Nat)
    (h : colors.toFinset.card < k) : ∃ r, r < k ∧ r ∉ colors := by
  have hsub : (Finset.range k).card - colors.toFinset.card ≤
      (Finset.range k \ colors.toFinset).card := Finset.le_card_sdiff _ _
  rw [Finset.card_range] at hsub
  have hpos : 0 < (Finset.range k \ colors.toFinset).card := by omega
  obtain ⟨r, hr⟩ := Finset.card_pos.mp hpos
  rw [Finset.mem_sdiff, Finset.mem_range, List.mem_toFinset] at hr
  exact ⟨r, hr.1, hr.2⟩

theorem mem_map_lookup_iff (vp : List (String × Nat)) (nbrs : List String) (r : Nat) :
    some r ∈ nbrs.map (fun u => lookupA vp u) ↔
      r ∈ nbrs.filterMap (fun u => lookupA vp u) := by
  rw [List.mem_map, List.mem_filterMap]

/-- The distinct colors among the colored members of a duplicate-free list
contained in `sub` number at most `sub.length`. -/
theorem card_colors_le (vp : List (String × Nat)) (nbrs sub : List String)
    (hsub : ∀ x ∈ nbrs, x ∈ sub) (hnd : nbrs.Nodup) :
    ((nbrs.filterMap (fun u => lookupA vp u)).toFinset.card ≤ sub.length) := by
  calc (nbrs.filterMap (fun u => lookupA vp u)).toFinset.card
      ≤ (nbrs.filterMap (fun u => lookupA vp u)).length := List.toFinset_card_le _
    _ ≤ nbrs.length := List.length_filterMap_le _ _
    _ ≤ sub.length := (hnd.subperm hsub).length_le

/-- Success and characterization of `find_and_assign_open_color`, given a
free color among `[0, k)`. -/
theorem find_assign_eq (v : String) (vp : List (String × Nat)) (E : Edges) (k : Nat)
    (hcard : ((lookupEdges (touch E v) v).filterMap
      (fun u => lookupA vp u)).toFinset.card < k) :
    ∃ r, find_and_assign_open_color v vp E k = some (touch E v, setVal vp v r) ∧
      r < k ∧
      some r ∉ (lookupEdges (touch E v) v).map (fun u => lookupA vp u) := by
  obtain ⟨r0, hr0k, hr0⟩ := exists_free_color _ k hcard
  have hfind : ((List.range k).find? (fun r =>
      !(((lookupEdges (touch E v) v).map (fun u => lookupA vp u)).contains
        (some r)))).isSome = true := by
    rw [List.find?_isSome]
    refine ⟨r0, List.mem_range.mpr hr0k, ?_⟩
    simp only [List.contains, List.elem_eq_mem, Bool.not_eq_true', decide_eq_false_iff_not]
    intro hmem
    exact hr0 ((mem_map_lookup_iff vp _ r0).mp hmem)
  obtain ⟨r, hr⟩ := Option.isSome_iff_exists.mp hfind
  refine ⟨r, ?_, List.mem_range.mp (List.mem_of_find?_eq_some hr), ?_⟩
  · unfold find_and_assign_open_color
    rw [hr]
  · have hpred := List.find?_some hr
    simp only [List.contains, List.elem_eq_mem, Bool.not_eq_true',
      decide_eq_false_iff_not] at hpred
    exact hpred

theorem nnc_eq (v : String) (vp : List (String × Nat)) (E : Edges) :
    number_of_neighbor_colors v vp E =
      (touch E v, ((lookupEdges (touch E v) v).filterMap
        (fun u => lookupA vp u)).toFinset.card) := by
  unfold number_of_neighbor_colors
  refine Prod.ext rfl ?_
  show (((lookupEdges (touch E v) v).map (fun u => lookupA vp u)).filterMap id).dedup.length
      = ((lookupEdges (touch E v) v).filterMap (fun u => lookupA vp u)).toFinset.card
  rw [List.filterMap_map, List.card_toFinset]
  rfl

theorem nodup_append_singleton (l : List String) (x : String)
    (h : l.Nodup) (hx : x ∉ l) : (l ++ [x]).Nodup := by
  rw [List.nodup_append]
  refine ⟨h, List.nodup_singleton x, ?_⟩
  intro a ha hb
  have : a = x := by simpa using hb
  exact hx (this ▸ ha)

/-- State invariant of the select loop, over the ghost list `P` of the
vertices popped so far: the re-added vertices `vs` are the unspilled
popped ones, the live graph is the input graph induced on them, its key
set is exactly `vs`, the coloring colors exactly `vs` with colors below
`k`, and no two input-adjacent colored vertices share a color. -/
structure SelInv (vs0 : List String) (E0 : Edges) (k : Nat)
    (vs : List String) (E : Edges) (vp : List (String × Nat))
    (spills P : List String) : Prop where
  vsP : ∀ x, x ∈ vs ↔ (x ∈ P ∧ x ∉ spills)
  spP : ∀ x ∈ spills, x ∈ P
  adj : ∀ a b, b ∈ lookupEdges E a ↔ (a ∈ vs ∧ b ∈ vs ∧ b ∈ lookupEdges E0 a)
  valNodup : ∀ a, (lookupEdges E a).Nodup
  keys : ∀ a, hasKeyB E a = true ↔ a ∈ vs
  colored : ∀ a, (lookupA vp a).isSome = true ↔ a ∈ vs
  range : ∀ a c, lookupA vp a = some c → c < k
  proper : ∀ a b ca cb, b ∈ lookupEdges E0 a → lookupA vp a = some ca →
    lookupA vp b = some cb → ca ≠ cb

/-- What re-adding a popped vertex does to the live graph: `add_node`
succeeds, and after the subsequent key-creating `edges[vertex]` access the
graph is the input graph induced on `vs ++ [v]`. -/
theorem add_node_spec {vs0 : List String} {E0 : Edges} {k : Nat}
    {vs : List String} {E : Edges} {vp : List (String × Nat)}
    {spills P : List String} (g : GoodGraph vs0 E0)
    {v : String} {ce : List String}
    (inv : SelInv vs0 E0 k vs E vp spills P)
    (hvP : v ∉ P) (hnd : ce.Nodup)
    (hiff : ∀ b, b ∈ ce ↔ (b ∈ P ∧ b ∈ lookupEdges E0 v)) :
    add_node v vs E ce = some (vs ++ [v], restore_edges v ce E) ∧
    (∀ a b, b ∈ lookupEdges (touch (restore_edges v ce E) v) a ↔
      (a ∈ vs ++ [v] ∧ b ∈ vs ++ [v] ∧ b ∈ lookupEdges E0 a)) ∧
    (∀ a, (lookupEdges (touch (restore_edges v ce E) v) a).Nodup) ∧
    (∀ a, hasKeyB (touch (restore_edges v ce E) v) a = true ↔ a ∈ vs ++ [v]) ∧
    (lookupEdges (touch (restore_edges v ce E) v) v).length ≤ ce.length := by
  have hvnot : v ∉ vs := fun h => hvP ((inv.vsP v).mp h).1
  have hvce : v ∉ ce := fun h => hvP ((hiff v).mp h).1
  have hvE : ∀ u ∈ ce, v ∉ lookupEdges E u :=
    fun u _ hmem => hvnot ((inv.adj u v).mp hmem).2.1
  have hceE : ∀ u ∈ ce, u ∉ lookupEdges E v :=
    fun u _ hmem => hvnot ((inv.adj v u).mp hmem).1
  have hKv : hasKeyB E v = false := by
    cases hc : hasKeyB E v
    · rfl
    · exact absurd ((inv.keys v).mp hc) hvnot
  have hEv : lookupEdges E v = [] := lookupEdges_of_not_hasKey _ _ hKv
  obtain ⟨c1, c2, c3⟩ := restore_edges_spec v ce E hnd hvce hvE hceE
  rw [hEv, List.nil_append] at c1
  have hKiff : ∀ u, hasKeyB E u = true ↔ u ∈ vs := inv.keys
  have memFv : ∀ b, b ∈ lookupEdges (restore_edges v ce E) v ↔ (b ∈ ce ∧ b ∈ vs) := by
    intro b
    rw [c1, List.mem_filter]
    constructor
    · rintro ⟨hb, hk⟩
      exact ⟨hb, (hKiff b).mp hk⟩
    · rintro ⟨hb, hv⟩
      exact ⟨hb, (hKiff b).mpr hv⟩
  have htou : ∀ a, lookupEdges (touch (restore_edges v ce E) v) a
      = lookupEdges (restore_edges v ce E) a := fun a => lookupEdges_touch _ _ _
  refine ⟨?_, ?_, ?_, ?_, ?_⟩
  · unfold add_node
    rw [if_neg hvnot]
  · intro a b
    rw [htou a]
    by_cases hav : a = v
    · rw [hav, memFv b]
      constructor
      · rintro ⟨hbce, hbvs⟩
        exact ⟨by simp, by simp [hbvs], ((hiff b).mp hbce).2⟩
      · rintro ⟨-, hb, hadj⟩
        rcases (mem_append_singleton vs v b).mp hb with hbvs | hbv
        · exact ⟨(hiff b).mpr ⟨((inv.vsP b).mp hbvs).1, hadj⟩, hbvs⟩
        · rw [hbv] at hadj
          exact absurd hadj (g.irrefl v)
    · rw [c2 a hav]
      by_cases hcond : a ∈ ce ∧ hasKeyB E a = true
      · rw [if_pos hcond]
        have havs : a ∈ vs := (hKiff a).mp hcond.2
        rw [mem_append_singleton]
        constructor
        · rintro (hmem | hbv)
          · obtain ⟨h1, h2, h3⟩ := (inv.adj a b).mp hmem
            exact ⟨by simp [h1], by simp [h2], h3⟩
          · refine ⟨by simp [havs], by simp [hbv], ?_⟩
            rw [hbv]
            exact g.sym v a ((hiff a).mp hcond.1).2
        · rintro ⟨-, hb, hadj⟩
          rcases (mem_append_singleton vs v b).mp hb with hbvs | hbv
          · exact Or.inl ((inv.adj a b).mpr ⟨havs, hbvs, hadj⟩)
          · exact Or.inr hbv
      · rw [if_neg hcond]
        rw [inv.adj a b]
        constructor
        · rintro ⟨h1, h2, h3⟩
          exact ⟨by simp [h1], by simp [h2], h3⟩
        · rintro ⟨ha, hb, hadj⟩
          rcases (mem_append_singleton vs v a).mp ha with havs | hav2
          · rcases (mem_append_singleton vs v b).mp hb with hbvs | hbv
            · exact ⟨havs, hbvs, hadj⟩
            · exfalso
              rw [hbv] at hadj
              have hadj2 : a ∈ lookupEdges E0 v := g.sym a v hadj
              have haP : a ∈ P := ((inv.vsP a).mp havs).1
              exact hcond ⟨(hiff a).mpr ⟨haP, hadj2⟩, (hKiff a).mpr havs⟩
          · exact absurd hav2 hav
  · intro a
    rw [htou a]
    by_cases hav : a = v
    · rw [hav, c1]
      exact hnd.filter _
    · rw [c2 a hav]
      by_cases hcond : a ∈ ce ∧ hasKeyB E a = true
      · rw [if_pos hcond]
        refine nodup_append_singleton _ _ (inv.valNodup a) ?_
        intro hmem
        exact hvnot ((inv.adj a v).mp hmem).2.1
      · rw [if_neg hcond]
        exact inv.valNodup a
  · intro a
    rw [hasKeyB_touch, c3 a, mem_append_singleton]
    constructor
    · rintro ((hk | ⟨rfl, -⟩) | rfl)
      · exact Or.inl ((hKiff a).mp hk)
      · exact Or.inr rfl
      · exact Or.inr rfl
    · rintro (hk | rfl)
      · exact Or.inl (Or.inl ((hKiff a).mpr hk))
      · exact Or.inr rfl
  · rw [htou v, c1]
    exact List.length_filter_le _ _

/-- Coloring the just re-added vertex with a free color preserves the
select-loop invariant. -/
theorem SelInv_color {vs0 : List String} {E0 : Edges} {k : Nat}
    {vs : List String} {E : Edges} {vp : List (String × Nat)}
    {spills P : List String} (g : GoodGraph vs0 E0)
    (inv : SelInv vs0 E0 k vs E vp spills P)
    {v : String} {Ft : Edges} {r : Nat} (hvP : v ∉ P)
    (hadj : ∀ a b, b ∈ lookupEdges Ft a ↔
      (a ∈ vs ++ [v] ∧ b ∈ vs ++ [v] ∧ b ∈ lookupEdges E0 a))
    (hvalNodup : ∀ a, (lookupEdges Ft a).Nodup)
    (hkeys : ∀ a, hasKeyB Ft a = true ↔ a ∈ vs ++ [v])
    (hrk : r < k)
    (hrfree : some r ∉ (lookupEdges Ft v).map (fun u => lookupA vp u)) :
    SelInv vs0 E0 k (vs ++ [v]) Ft (setVal vp v r) spills (v :: P) := by
  have hvnot : v ∉ vs := fun h => hvP ((inv.vsP v).mp h).1
  have hvsp : v ∉ spills := fun h => hvP (inv.spP v h)
  refine ⟨?_, ?_, hadj, hvalNodup, hkeys, ?_, ?_, ?_⟩
  · intro x
    rw [mem_append_singleton, List.mem_cons]
    by_cases hxv : x = v
    · constructor
      · intro _
        exact ⟨Or.inl hxv, by rw [hxv]; exact hvsp⟩
      · intro _
        exact Or.inr hxv
    · constructor
      · rintro (h1 | h1)
        · exact ⟨Or.inr ((inv.vsP x).mp h1).1, ((inv.vsP x).mp h1).2⟩
        · exact absurd h1 hxv
      · rintro ⟨h1 | h1, h2⟩
        · exact absurd h1 hxv
        · exact Or.inl ((inv.vsP x).mpr ⟨h1, h2⟩)
  · intro x hx
    exact List.mem_cons_of_mem _ (inv.spP x hx)
  · intro a
    rw [mem_append_singleton]
    by_cases hav : a = v
    · rw [hav, lookupA_setVal_self]
      simp
    · rw [lookupA_setVal_ne _ _ _ _ hav, inv.colored a]
      simp [hav]
  · intro a c hc
    by_cases hav : a = v
    · rw [hav, lookupA_setVal_self] at hc
      cases hc
      exact hrk
    · rw [lookupA_setVal_ne _ _ _ _ hav] at hc
      exact inv.range a c hc
  · intro a b ca cb hadj0 hca hcb
    by_cases hav : a = v
    · rw [hav, lookupA_setVal_self] at hca
      cases hca
      by_cases hbv : b = v
      · rw [hav, hbv] at hadj0
        exact absurd hadj0 (g.irrefl v)
      · rw [lookupA_setVal_ne _ _ _ _ hbv] at hcb
        have hbvs : b ∈ vs := (inv.colored b).mp (by rw [hcb]; rfl)
        have hbFt : b ∈ lookupEdges Ft v := by
          rw [hadj v b]
          exact ⟨by simp, by simp [hbvs], by rw [← hav]; exact hadj0⟩
        intro hceq
        apply hrfree
        rw [List.mem_map]
        exact ⟨b, hbFt, by rw [hcb, hceq]⟩
    · rw [lookupA_setVal_ne _ _ _ _ hav] at hca
      by_cases hbv : b = v
      · rw [hbv, lookupA_setVal_self] at hcb
        cases hcb
        have havs : a ∈ vs := (inv.colored a).mp (by rw [hca]; rfl)
        have haFt : a ∈ lookupEdges Ft v := by
          rw [hadj v a]
          refine ⟨by simp, by simp [havs], ?_⟩
          apply g.sym a v
          rw [← hbv]
          exact hadj0
        intro hceq
        apply hrfree
        rw [List.mem_map]
        exact ⟨a, haFt, by rw [hca, hceq]⟩
      · rw [lookupA_setVal_ne _ _ _ _ hbv] at hcb
        exact inv.proper a b ca cb hadj0 hca hcb

/-- Undoing the optimistic re-insertion and spilling the vertex preserves
the select-loop invariant. -/
theorem SelInv_spill {vs0 : List String} {E0 : Edges} {k : Nat}
    {vs : List String} {E : Edges} {vp : List (String × Nat)}
    {spills P : List String} (g : GoodGraph vs0 E0)
    (inv : SelInv vs0 E0 k vs E vp spills P)
    {v : String} {Ft : Edges} (hvP : v ∉ P)
    (hadj : ∀ a b, b ∈ lookupEdges Ft a ↔
      (a ∈ vs ++ [v] ∧ b ∈ vs ++ [v] ∧ b ∈ lookupEdges E0 a))
    (hvalNodup : ∀ a, (lookupEdges Ft a).Nodup)
    (hkeys : ∀ a, hasKeyB Ft a = true ↔ a ∈ vs ++ [v])
    {vs2 : List String} {E3 : Edges} {ce2 : List String}
    (hrm : remove_node v (vs ++ [v]) Ft = some ((vs2, E3), ce2)) :
    vs2 = vs ∧ SelInv vs0 E0 k vs E3 vp (insertR spills v) (v :: P) := by
  have hvnot : v ∉ vs := fun h => hvP ((inv.vsP v).mp h).1
  obtain ⟨hvmem, hvs2, hce2⟩ := remove_node_some hrm
  simp only at hvs2 hce2
  have hvs2' : vs2 = vs := by
    rw [hvs2, erase_append_self vs v hvnot]
  have hlook := remove_node_lookup hrm (hvalNodup v)
  have hkey := remove_node_hasKey hrm
  refine ⟨hvs2', ?_, ?_, ?_, ?_, ?_, inv.colored, inv.range, inv.proper⟩
  · intro x
    rw [List.mem_cons]
    by_cases hxv : x = v
    · simp only [hxv]
      constructor
      · intro hmem
        exact absurd hmem hvnot
      · rintro ⟨-, hnot⟩
        exact absurd ((mem_insertR spills v v).mpr (Or.inr rfl)) hnot
    · rw [inv.vsP x]
      constructor
      · rintro ⟨h1, h2⟩
        refine ⟨Or.inr h1, ?_⟩
        intro hmem
        rcases (mem_insertR spills v x).mp hmem with h | h
        · exact h2 h
        · exact hxv h
      · rintro ⟨h1 | h1, h2⟩
        · exact absurd h1 hxv
        · exact ⟨h1, fun hsp => h2 ((mem_insertR spills v x).mpr (Or.inl hsp))⟩
  · intro x hx
    rcases (mem_insertR spills v x).mp hx with h | h
    · exact List.mem_cons_of_mem _ (inv.spP x h)
    · rw [h]
      exact List.mem_cons_self v P
  · intro a b
    rw [hlook a]
    by_cases hav : a = v
    · rw [if_pos hav]
      simp only [List.not_mem_nil, false_iff]
      rintro ⟨ha, -, -⟩
      rw [hav] at ha
      exact hvnot ha
    · rw [if_neg hav]
      by_cases haF : a ∈ lookupEdges Ft v
      · rw [if_pos haF]
        rw [mem_erase_iff_of_nodup _ _ _ (hvalNodup a), hadj a b]
        constructor
        · rintro ⟨⟨ha, hb, hab⟩, hbv⟩
          rcases (mem_append_singleton vs v a).mp ha with ha' | ha'
          · rcases (mem_append_singleton vs v b).mp hb with hb' | hb'
            · exact ⟨ha', hb', hab⟩
            · exact absurd hb' hbv
          · exact absurd ha' hav
        · rintro ⟨ha, hb, hab⟩
          have hbv : b ≠ v := fun hh => hvnot (hh ▸ hb)
          exact ⟨⟨by simp [ha], by simp [hb], hab⟩, hbv⟩
      · rw [if_neg haF]
        rw [hadj a b]
        constructor
        · rintro ⟨ha, hb, hab⟩
          rcases (mem_append_singleton vs v b).mp hb with hb' | hb'
          · rcases (mem_append_singleton vs v a).mp ha with ha' | ha'
            · exact ⟨ha', hb', hab⟩
            · exact absurd ha' hav
          · exfalso
            apply haF
            rw [hadj v a]
            refine ⟨by simp, ha, ?_⟩
            apply g.sym a v
            rw [← hb']
            exact hab
        · rintro ⟨ha, hb, hab⟩
          exact ⟨by simp [ha], by simp [hb], hab⟩
  · intro a
    rw [hlook a]
    by_cases hav : a = v
    · rw [if_pos hav]
      exact List.nodup_nil
    · rw [if_neg hav]
      by_cases haF : a ∈ lookupEdges Ft v
      · rw [if_pos haF]
        exact (hvalNodup a).erase v
      · rw [if_neg haF]
        exact hvalNodup a
  · intro a
    rw [hkey a, hkeys a]
    constructor
    · rintro ⟨h1 | h1, h2⟩
      · rcases (mem_append_singleton vs v a).mp h1 with h | h
        · exact h
        · exact absurd h h2
      · have := (hadj v a).mp h1
        rcases (mem_append_singleton vs v a).mp this.2.1 with h | h
        · exact h
        · exact absurd h h2
    · intro hmem
      have hanv : a ≠ v := fun hh => hvnot (hh ▸ hmem)
      exact ⟨Or.inl (by simp [hmem]), hanv⟩

/-- Master lemma for the select phase: on a `GoodStack` it completes with
no assertion failure, and the final coloring is within `[0, k)` and
proper on the input graph. -/
theorem select_spec {vs0 : List String} {E0 : Edges} {k : Nat}
    (g : GoodGraph vs0 E0) :
    ∀ (stack : List (String × List String × Action)) (P vs : List String)
      (E : Edges) (vp : List (String × Nat)) (spills : List String),
      GoodStack E0 k stack P →
      SelInv vs0 E0 k vs E vp spills P →
      ∃ spills1 vp1, selectPhase k stack vs E vp spills = some (spills1, vp1) ∧
        (∀ a c, lookupA vp1 a = some c → c < k) ∧
        (∀ a b ca cb, b ∈ lookupEdges E0 a → lookupA vp1 a = some ca →
          lookupA vp1 b = some cb → ca ≠ cb) := by
  intro stack
  induction stack with
  | nil =>
    intro P vs E vp spills _ inv
    exact ⟨spills, vp, rfl, inv.range, inv.proper⟩
  | cons e rest ih =>
    obtain ⟨v, ce, act⟩ := e
    intro P vs E vp spills gs inv
    obtain ⟨hvP, hnd, hiff, hcol, gs'⟩ := gs
    obtain ⟨hadd, hadj, hvalNodup, hkeys, hlen⟩ := add_node_spec g inv hvP hnd hiff
    cases act with
    | tocolor =>
      have hcard : ((lookupEdges (touch (restore_edges v ce E) v) v).filterMap
          (fun u => lookupA vp u)).toFinset.card < k := by
        calc ((lookupEdges (touch (restore_edges v ce E) v) v).filterMap
              (fun u => lookupA vp u)).toFinset.card
            ≤ ((lookupEdges (touch (restore_edges v ce E) v) v).filterMap
              (fun u => lookupA vp u)).length := List.toFinset_card_le _
          _ ≤ (lookupEdges (touch (restore_edges v ce E) v) v).length :=
              List.length_filterMap_le _ _
          _ ≤ ce.length := hlen
          _ < k := hcol rfl
      obtain ⟨r, hfa, hrk, hrfree⟩ := find_assign_eq v vp (restore_edges v ce E) k hcard
      have inv2 := SelInv_color g inv hvP hadj hvalNodup hkeys hrk hrfree
      obtain ⟨sp1, vp1, hrun, hrange, hproper⟩ :=
        ih (v :: P) (vs ++ [v]) (touch (restore_edges v ce E) v)
          (setVal vp v r) spills gs' inv2
      refine ⟨sp1, vp1, ?_, hrange, hproper⟩
      simp only [selectPhase, hadd, hfa]
      exact hrun
    | tospill =>
      have hnnc := nnc_eq v vp (restore_edges v ce E)
      have hvkey : hasKeyB (touch (restore_edges v ce E) v) v = true :=
        (hkeys v).mpr (by simp)
      by_cases hguard : ((lookupEdges (touch (restore_edges v ce E) v) v).filterMap
          (fun u => lookupA vp u)).toFinset.card < k
      · have htt : touch (touch (restore_edges v ce E) v) v
            = touch (restore_edges v ce E) v := touch_of_hasKey _ _ hvkey
        have hcard2 : ((lookupEdges (touch (touch (restore_edges v ce E) v) v) v).filterMap
            (fun u => lookupA vp u)).toFinset.card < k := by
          rw [htt]
          exact hguard
        obtain ⟨r, hfa, hrk, hrfree⟩ :=
          find_assign_eq v vp (touch (restore_edges v ce E) v) k hcard2
        rw [htt] at hfa hrfree
        have inv2 := SelInv_color g inv hvP hadj hvalNodup hkeys hrk hrfree
        obtain ⟨sp1, vp1, hrun, hrange, hproper⟩ :=
          ih (v :: P) (vs ++ [v]) (touch (restore_edges v ce E) v)
            (setVal vp v r) spills gs' inv2
        refine ⟨sp1, vp1, ?_, hrange, hproper⟩
        simp only [selectPhase, hadd, hnnc]
        rw [if_pos hguard]
        simp only [hfa]
        exact hrun
      · have hvmem : v ∈ vs ++ [v] := by simp
        cases hrm : remove_node v (vs ++ [v]) (touch (restore_edges v ce E) v) with
        | none =>
          exfalso
          unfold remove_node at hrm
          rw [if_pos hvmem] at hrm
          exact absurd hrm (by simp)
        | some rr =>
          obtain ⟨⟨vs2, E3⟩, ce2⟩ := rr
          obtain ⟨hvs2, inv2⟩ := SelInv_spill g inv hvP hadj hvalNodup hkeys hrm
          obtain ⟨sp1, vp1, hrun, hrange, hproper⟩ :=
            ih (v :: P) vs E3 vp (insertR spills v) gs' inv2
          refine ⟨sp1, vp1, ?_, hrange, hproper⟩
          simp only [selectPhase, hadd, hnnc]
          rw [if_neg hguard]
          simp only [hrm]
          rw [hvs2]
          exact hrun

/-- The input graph itself satisfies the simplify invariant. -/
theorem SimpInv_init {vs0 : List String} {E0 : Edges} (g : GoodGraph vs0 E0) :
    SimpInv vs0 E0 vs0 E0 := by
  refine ⟨fun x h => h, g.nodup, fun a b => ?_, g.valNodup, g.keys⟩
  constructor
  · intro h
    exact ⟨(g.support a b h).1, (g.support a b h).2, h⟩
  · rintro ⟨-, -, h⟩
    exact h

/-- The empty select-loop state satisfies the select invariant when the
edge dict has no keys. -/
theorem SelInv_init {vs0 : List String} {E0 : Edges} {k : Nat} {E1 : Edges}
    (hnokeys : ∀ a, hasKeyB E1 a = false) :
    SelInv vs0 E0 k [] E1 [] [] [] := by
  have hlook : ∀ a, lookupEdges E1 a = [] :=
    fun a => lookupEdges_of_not_hasKey E1 a (hnokeys a)
  refine ⟨fun x => by simp, fun x hx => hx, fun a b => ?_, ?_, fun a => ?_,
    fun a => by simp [lookupA], fun a c hc => by simp [lookupA] at hc,
    fun a b ca cb _ hca _ => by simp [lookupA] at hca⟩
  · rw [hlook a]
    simp
  · intro a
    rw [hlook a]
    exact List.nodup_nil
  · rw [hnokeys a]
    simp

/-- With `k ≥ 1` and no empty-string vertex name the simplify loop always
returns. -/
theorem simplify_success {vs0 : List String} {E0 : Edges} {k : Nat}
    (g : GoodGraph vs0 E0) (hk : 1 ≤ k) (hnames : ∀ v ∈ vs0, v ≠ "") :
    ∀ (n : Nat) (vs : List String) (E : Edges)
      (stack : List (String × List String × Action)),
      vs.length ≤ n → SimpInv vs0 E0 vs E →
      (simplifyGo k n vs E stack).isSome = true := by
  intro n
  induction n with
  | zero =>
    intro vs E stack hlen inv
    have hvs : vs = [] := List.length_eq_zero.mp (Nat.le_zero.mp hlen)
    subst hvs
    rfl
  | succ n ih =>
    intro vs E stack hlen inv
    by_cases hvs : vs = []
    · subst hvs
      rfl
    · have hnames' : ∀ v ∈ vs, v ≠ "" := fun v hv => hnames v (inv.sub v hv)
      rw [simplifyGo]
      simp only [if_neg hvs]
      by_cases hvne : pick_low vs E k = ""
      · rw [if_neg (not_not_intro hvne)]
        have hall := pick_low_empty vs E k hnames' hvne
        obtain ⟨v0, hv0⟩ : ∃ v0, v0 ∈ vs := by
          cases vs with
          | nil => exact absurd rfl hvs
          | cons a t => exact ⟨a, List.mem_cons_self a t⟩
        have hdeg : 0 < vertex_degree v0 E := by
          have := hall v0 hv0
          omega
        have hmax := pick_max_mem vs E ⟨v0, hv0, hdeg⟩
        have hmne : (pick_max vs E).1 ≠ "" := hnames' _ hmax
        rw [if_neg hmne]
        cases hrm : remove_node (pick_max vs E).1 vs E with
        | none =>
          exfalso
          unfold remove_node at hrm
          rw [if_pos hmax] at hrm
          exact absurd hrm (by simp)
        | some r =>
          obtain ⟨⟨vs1, E1⟩, ce⟩ := r
          obtain ⟨-, -, -, inv1, -, -⟩ := SimpInv_remove g inv hrm
          obtain ⟨hmem2, hvs1, -⟩ := remove_node_some hrm
          simp only at hvs1
          have : vs1.length ≤ n := by
            rw [hvs1, List.length_erase_of_mem hmem2]
            have : 0 < vs.length := List.length_pos.mpr hvs
            omega
          exact ih vs1 E1 _ this inv1
      · rw [if_pos hvne]
        rcases pick_low_spec vs E k with h | ⟨hmem, -⟩
        · exact absurd h hvne
        · cases hrm : remove_node (pick_low vs E k) vs E with
          | none =>
            exfalso
            unfold remove_node at hrm
            rw [if_pos hmem] at hrm
            exact absurd hrm (by simp)
          | some r =>
            obtain ⟨⟨vs1, E1⟩, ce⟩ := r
            obtain ⟨-, -, -, inv1, -, -⟩ := SimpInv_remove g inv hrm
            obtain ⟨hmem2, hvs1, -⟩ := remove_node_some hrm
            simp only at hvs1
            have : vs1.length ≤ n := by
              rw [hvs1, List.length_erase_of_mem hmem2]
              have : 0 < vs.length := List.length_pos.mpr hvs
              omega
            exact ih vs1 E1 _ this inv1

/-- C1: For every interference graph (a duplicate-free vertex set with
symmetric, irreflexive adjacency sets supported on it) and every `k ≥ 1`,
in the pair `(spill_set, coloring)` returned by `allocate_k_registers`,
any two adjacent vertices that both appear in the coloring receive
different register indices, and every assigned index lies in `[0, k)`;
this holds regardless of which simplify/spill/select path produced the
coloring. -/
theorem C1_coloring_proper (vs0 : List String) (E0 : Edges) (k : Nat)
    (g : GoodGraph vs0 E0) (hk : 1 ≤ k)
    (sp : List String) (vp : List (String × Nat))
    (h : allocate_k_registers vs0 E0 k = some (sp, vp)) :
    (∀ a b ca cb, b ∈ lookupEdges E0 a → lookupA vp a = some ca →
      lookupA vp b = some cb → ca ≠ cb) ∧
    (∀ a c, lookupA vp a = some c → c < k) := by
  unfold allocate_k_registers at h
  cases hsim : simplifyPhase k vs0 E0 [] with
  | none =>
    rw [hsim] at h
    exact absurd h (by simp)
  | some pr =>
    obtain ⟨stack, E1⟩ := pr
    rw [hsim] at h
    have h2 : selectPhase k stack [] E1 [] [] = some (sp, vp) := h
    obtain ⟨gstack, hnokeys⟩ := simplify_spec g vs0.length vs0 E0 [] stack E1
      (SimpInv_init g) trivial hsim
    obtain ⟨sp1, vp1, hrun, hrange, hproper⟩ :=
      select_spec g stack [] [] E1 [] [] gstack (SelInv_init hnokeys)
    rw [hrun] at h2
    simp only [Option.some.injEq, Prod.mk.injEq] at h2
    obtain ⟨rfl, rfl⟩ := h2
    exact ⟨hproper, hrange⟩

/-- C4: on any stack produced by a successful simplify phase, the select
phase runs to completion: the `assert False` inside
`find_and_assign_open_color` is unreachable on the to-color path, and
likewise on the to-spill path guarded by
`number_of_neighbor_colors(vertex) < k`. -/
theorem C4_select_no_assert (vs0 : List String) (E0 : Edges) (k : Nat)
    (g : GoodGraph vs0 E0) (hk : 1 ≤ k)
    (stack : List (String × List String × Action)) (E1 : Edges)
    (h : simplifyPhase k vs0 E0 [] = some (stack, E1)) :
    (selectPhase k stack [] E1 [] []).isSome = true := by
  obtain ⟨gstack, hnokeys⟩ := simplify_spec g vs0.length vs0 E0 [] stack E1
    (SimpInv_init g) trivial h
  obtain ⟨sp1, vp1, hrun, -, -⟩ :=
    select_spec g stack [] [] E1 [] [] gstack (SelInv_init hnokeys)
  rw [hrun]
  rfl

/-- C5 counterexample: the interference graph with the single vertex named
`""` (empty adjacency, hence symmetric and irreflexive) and `k = 1` makes
`allocate_k_registers` hit the `assert vertex_tuple[0]` failure in the
max-degree fallback instead of returning a spill set and coloring: the
scan's sentinel for "no vertex found" collides with the empty-string
vertex name. -/
theorem C5_counterexample : allocate_k_registers [""] [] 1 = none := rfl

/-- C5 (amended): for every finite interference graph all of whose vertex
names are nonempty and every `k ≥ 1`, `allocate_k_registers` terminates
and returns a spill set together with a (possibly empty) coloring; the
simplify loop removes one vertex per iteration (the maximum-degree
fallback finds one whenever no vertex has degree `< k`), and the select
loop pops one stack entry per iteration. -/
theorem C5_amended_terminates (vs0 : List String) (E0 : Edges) (k : Nat)
    (g : GoodGraph vs0 E0) (hk : 1 ≤ k) (hnames : ∀ v ∈ vs0, v ≠ "") :
    (allocate_k_registers vs0 E0 k).isSome = true := by
  unfold allocate_k_registers
  cases hsim : simplifyPhase k vs0 E0 [] with
  | none =>
    exfalso
    have := simplify_success g hk hnames vs0.length vs0 E0 [] le_rfl (SimpInv_init g)
    rw [show simplifyGo k vs0.length vs0 E0 [] = simplifyPhase k vs0 E0 [] from rfl,
      hsim] at this
    exact absurd this (by simp)
  | some pr =>
    obtain ⟨stack, E1⟩ := pr
    obtain ⟨gstack, hnokeys⟩ := simplify_spec g vs0.length vs0 E0 [] stack E1
      (SimpInv_init g) trivial hsim
    obtain ⟨sp1, vp1, hrun, -, -⟩ :=
      select_spec g stack [] [] E1 [] [] gstack (SelInv_init hnokeys)
    show (selectPhase k stack [] E1 [] []).isSome = true
    rw [hrun]
    rfl

/-! ### A concrete two-vertex interference graph for witnesses -/

def K2v : List String := ["a", "b"]

def K2e : Edges := [("a", ["b"]), ("b", ["a"])]

theorem K2e_lookup (x : String) : lookupEdges K2e x =
    if "a" = x then ["b"] else if "b" = x then ["a"] else [] := by
  unfold K2e lookupEdges
  rw [lookupA_cons, lookupA_cons]
  by_cases h1 : "a" = x
  · simp [h1]
  · by_cases h2 : "b" = x <;> simp [h1, h2]

theorem goodGraph_K2 : GoodGraph K2v K2e := by
  refine ⟨by decide, ?_, ?_, ?_, ?_, ?_⟩
  · intro a
    rw [K2e_lookup]
    split_ifs <;> decide
  · intro a b h
    rw [K2e_lookup] at h
    rw [K2e_lookup]
    split_ifs at h with h1 h2
    · have hb : b = "b" := by simpa using h
      rw [hb, ← h1]
      decide
    · have hb : b = "a" := by simpa using h
      rw [hb, ← h2]
      decide
    · cases h
  · intro a h
    rw [K2e_lookup] at h
    split_ifs at h with h1 h2
    · rw [← h1] at h
      simp at h
    · rw [← h2] at h
      simp at h
    · cases h
  · intro a b h
    rw [K2e_lookup] at h
    split_ifs at h with h1 h2
    · have hb : b = "b" := by simpa using h
      rw [← h1, hb]
      exact ⟨by decide, by decide⟩
    · have hb : b = "a" := by simpa using h
      rw [← h2, hb]
      exact ⟨by decide, by decide⟩
    · cases h
  · intro a h
    unfold hasKeyB K2e at h
    rw [lookupA_cons, lookupA_cons] at h
    by_cases h1 : "a" = a
    · rw [← h1]
      decide
    · by_cases h2 : "b" = a
      · rw [← h2]
        decide
      · rw [if_neg h1, if_neg h2] at h
        simp at h

/-- Witness for C1: on the two-vertex complete graph with two registers
the returned coloring assigns the adjacent vertices distinct registers
below 2. -/
theorem C1_coloring_proper_witness :
    ∃ sp vp, allocate_k_registers K2v K2e 2 = some (sp, vp) ∧
      ∀ ca cb, lookupA vp "a" = some ca → lookupA vp "b" = some cb →
        ca ≠ cb ∧ ca < 2 := by
  refine ⟨[], [("a", 0), ("b", 1)], rfl, ?_⟩
  intro ca cb hca hcb
  have h := C1_coloring_proper K2v K2e 2 goodGraph_K2 (by decide) []
    [("a", 0), ("b", 1)] rfl
  exact ⟨h.1 "a" "b" ca cb (by decide) hca hcb, h.2 "a" ca hca⟩

/-- Witness for C4: the select phase completes on the stack the simplify
phase produces for the two-vertex complete graph with two registers. -/
theorem C4_select_no_assert_witness :
    (selectPhase 2 [("a", [], Action.tocolor), ("b", ["a"], Action.tocolor)]
      [] [] [] []).isSome = true :=
  C4_select_no_assert K2v K2e 2 goodGraph_K2 (by decide)
    [("a", [], Action.tocolor), ("b", ["a"], Action.tocolor)] [] rfl

/-- Witness for the amended C5: the allocator returns on the two-vertex
complete graph with two registers. -/
theorem C5_amended_terminates_witness :
    (allocate_k_registers K2v K2e 2).isSome = true :=
  C5_amended_terminates K2v K2e 2 goodGraph_K2 (by decide) (by decide)

/-! ### The generic dataflow engine (`assignments/lib/dataflow.py`)

The engine is generic over the fact type `F` and the block type `B`.
`in_facts` and `out_facts` are `defaultdict`s, modelled as total functions
initialized to the empty fact; the worklist pops at the front
(`worklist.pop(0)`) and extends at the back.  A `KeyError` on
`block_map`, `successors` or `predecessors` is modelled by `none`; since
the Python loop has no termination guarantee of its own (it relies on the
caller's monotone finite-height lattice), the run takes a fuel bound and
every claim about it is conditional on the loop finishing. -/

def updateF {F : Type} (f : String → F) (k : String) (v : F) : String → F :=
  fun x => if x = k then v else f x

theorem updateF_self {F : Type} (f : String → F) (k : String) (v : F) :
    updateF f k v k = v := by
  simp [updateF]

theorem updateF_ne {F : Type} (f : String → F) (k x : String) (v : F)
    (h : x ≠ k) : updateF f k v x = f x := by
  simp [updateF, h]

/-- The `backward_data_flow` worklist loop. -/
def backwardRun {F B : Type} (bm : List (String × B))
    (preds succs : List (String × List String))
    (transfer : F → B → F) (meet : List F → F) (checker : F → F → Bool) :
    Nat → (String → F) → (String → F) → List String →
    Option ((String → F) × (String → F))
  | _, inF, outF, [] => some (inF, outF)
  | 0, _, _, _ :: _ => none
  | fuel + 1, inF, outF, b :: rest =>
    match lookupA bm b, lookupA succs b with
    | some blk, some bsuccs =>
      let newOut := meet (bsuccs.map inF)
      let newIn := transfer newOut blk
      if checker newIn (inF b) then
        backwardRun bm preds succs transfer meet checker fuel
          inF (updateF outF b newOut) rest
      else
        match lookupA preds b with
        | some bpreds =>
          backwardRun bm preds succs transfer meet checker fuel
            (updateF inF b newIn) (updateF outF b newOut) (rest ++ bpreds)
        | none => none
    | _, _ => none

/-- `backward_data_flow`: all facts start at the empty fact and the
worklist is the reversed block list. -/
def backward_data_flow {F B : Type} (bm : List (String × B))
    (preds succs : List (String × List String)) (emptyFact : F)
    (transfer : F → B → F) (meet : List F → F) (checker : F → F → Bool)
    (fuel : Nat) : Option ((String → F) × (String → F)) :=
  backwardRun bm preds succs transfer meet checker fuel
    (fun _ => emptyFact) (fun _ => emptyFact) (keysOf bm).reverse

/-- The `forward_data_flow` worklist loop. -/
def forwardRun {F B : Type} (bm : List (String × B))
    (preds succs : List (String × List String))
    (transfer : F → B → F) (meet : List F → F) (checker : F → F → Bool) :
    Nat → (String → F) → (String → F) → List String →
    Option ((String → F) × (String → F))
  | _, inF, outF, [] => some (inF, outF)
  | 0, _, _, _ :: _ => none
  | fuel + 1, inF, outF, b :: rest =>
    match lookupA bm b, lookupA preds b with
    | some blk, some bpreds =>
      let newIn := meet (bpreds.map outF)
      let newOut := transfer newIn blk
      if checker newOut (outF b) then
        forwardRun bm preds succs transfer meet checker fuel
          (updateF inF b newIn) outF rest
      else
        match lookupA succs b with
        | some bsuccs =>
          forwardRun bm preds succs transfer meet checker fuel
            (updateF inF b newIn) (updateF outF b newOut) (rest ++ bsuccs)
        | none => none
    | _, _ => none

/-- `forward_data_flow`: all facts start at the empty fact and the
worklist is the block list in order. -/
def forward_data_flow {F B : Type} (bm : List (String × B))
    (preds succs : List (String × List String)) (emptyFact : F)
    (transfer : F → B → F) (meet : List F → F) (checker : F → F → Bool)
    (fuel : Nat) : Option ((String → F) × (String → F)) :=
  forwardRun bm preds succs transfer meet checker fuel
    (fun _ => emptyFact) (fun _ => emptyFact) (keysOf bm)

/-- The backward dataflow equations at block `b`. -/
def BSat {F B : Type} (bm : List (String × B))
    (succs : List (String × List String)) (transfer : F → B → F)
    (meet : List F → F) (inF outF : String → F) (b : String) : Prop :=
  ∃ blk bsuccs, lookupA bm b = some blk ∧ lookupA succs b = some bsuccs ∧
    outF b = meet (bsuccs.map inF) ∧ inF b = transfer (outF b) blk

/-- The forward dataflow equations at block `b`. -/
def FSat {F B : Type} (bm : List (String × B))
    (preds : List (String × List String)) (transfer : F → B → F)
    (meet : List F → F) (inF outF : String → F) (b : String) : Prop :=
  ∃ blk bpreds, lookupA bm b = some blk ∧ lookupA preds b = some bpreds ∧
    inF b = meet (bpreds.map outF) ∧ outF b = transfer (inF b) blk

theorem lookupA_some_mem_keys {α : Type} {m : List (String × α)} {k : String}
    {v : α} (h : lookupA m k = some v) : k ∈ keysOf m := by
  induction m with
  | nil => simp [lookupA] at h
  | cons p t ih =>
    obtain ⟨k', v'⟩ := p
    rw [lookupA_cons] at h
    by_cases hk : k' = k
    · rw [hk]
      exact List.mem_cons_self k (keysOf t)
    · rw [if_neg hk] at h
      exact List.mem_cons_of_mem _ (ih h)

theorem map_congr_mem {α β : Type} (l : List α) (f g : α → β)
    (h : ∀ x ∈ l, f x = g x) : l.map f = l.map g := by
  induction l with
  | nil => rfl
  | cons a t ih =>
    simp only [List.map_cons]
    rw [h a (List.mem_cons_self a t), ih (fun x hx => h x (List.mem_cons_of_mem _ hx))]

/-- Fixed-point property of the backward worklist loop: every block is
either still enqueued or satisfies its equations, so when the worklist
drains every block satisfies them. -/
theorem backwardRun_fixed {F B : Type} (bm : List (String × B))
    (preds succs : List (String × List String))
    (transfer : F → B → F) (meet : List F → F) (checker : F → F → Bool)
    (hchk : ∀ x y, checker x y = true ↔ x = y)
    (hinv : ∀ a b, a ∈ keysOf bm → b ∈ keysOf bm →
      (b ∈ (lookupA succs a).getD [] ↔ a ∈ (lookupA preds b).getD [])) :
    ∀ (fuel : Nat) (inF outF : String → F) (wl : List String)
      (r : (String → F) × (String → F)),
      (∀ b, b ∈ keysOf bm → b ∈ wl ∨ BSat bm succs transfer meet inF outF b) →
      backwardRun bm preds succs transfer meet checker fuel inF outF wl = some r →
      ∀ b, b ∈ keysOf bm → BSat bm succs transfer meet r.1 r.2 b := by
  intro fuel
  induction fuel with
  | zero =>
    intro inF outF wl r hi hrun b hb
    cases wl with
    | nil =>
      cases hrun
      rcases hi b hb with h | h
      · cases h
      · exact h
    | cons c rest => exact absurd hrun (by simp [backwardRun])
  | succ fuel ih =>
    intro inF outF wl r hi hrun b hb
    cases wl with
    | nil =>
      cases hrun
      rcases hi b hb with h | h
      · cases h
      · exact h
    | cons c rest =>
      simp only [backwardRun] at hrun
      cases hbm : lookupA bm c with
      | none => rw [hbm] at hrun; exact absurd hrun (by simp)
      | some blk =>
        cases hsc : lookupA succs c with
        | none => rw [hbm, hsc] at hrun; exact absurd hrun (by simp)
        | some bsuccs =>
          rw [hbm, hsc] at hrun
          simp only [] at hrun
          have hc : c ∈ keysOf bm := lookupA_some_mem_keys hbm
          by_cases hck : checker (transfer (meet (bsuccs.map inF)) blk) (inF c) = true
          · rw [if_pos hck] at hrun
            have heq : transfer (meet (bsuccs.map inF)) blk = inF c := (hchk _ _).mp hck
            refine ih inF (updateF outF c (meet (bsuccs.map inF))) rest r ?_ hrun b hb
            intro b' hb'
            by_cases hbc : b' = c
            · right
              refine ⟨blk, bsuccs, by rw [hbc]; exact hbm, by rw [hbc]; exact hsc, ?_, ?_⟩
              · rw [hbc, updateF_self]
              · rw [hbc, updateF_self, heq]
            · rcases hi b' hb' with h | h
              · rcases List.mem_cons.mp h with h1 | h1
                · exact absurd h1 hbc
                · exact Or.inl h1
              · obtain ⟨blk', bsuccs', h1, h2, h3, h4⟩ := h
                exact Or.inr ⟨blk', bsuccs', h1, h2,
                  by rw [updateF_ne _ _ _ _ hbc]; exact h3,
                  by rw [updateF_ne _ _ _ _ hbc]; exact h4⟩
          · rw [if_neg hck] at hrun
            cases hpd : lookupA preds c with
            | none => rw [hpd] at hrun; exact absurd hrun (by simp)
            | some bpreds =>
              rw [hpd] at hrun
              refine ih (updateF inF c (transfer (meet (bsuccs.map inF)) blk))
                (updateF outF c (meet (bsuccs.map inF))) (rest ++ bpreds) r ?_ hrun b hb
              intro b' hb'
              by_cases hbc : b' = c
              · by_cases hcs : c ∈ bsuccs
                · left
                  rw [hbc, List.mem_append]
                  right
                  have := (hinv c c hc hc).mp (by rw [hsc]; exact hcs)
                  rw [hpd] at this
                  exact this
                · right
                  refine ⟨blk, bsuccs, by rw [hbc]; exact hbm, by rw [hbc]; exact hsc, ?_, ?_⟩
                  · rw [hbc, updateF_self]
                    congr 1
                    exact map_congr_mem bsuccs _ _
                      (fun x hx => (updateF_ne _ _ _ _
                        (fun hh => hcs (by rw [← hh]; exact hx))).symm)
                  · rw [hbc, updateF_self, updateF_self]
              · rcases hi b' hb' with h | h
                · rcases List.mem_cons.mp h with h1 | h1
                  · exact absurd h1 hbc
                  · exact Or.inl (List.mem_append.mpr (Or.inl h1))
                · obtain ⟨blk', bsuccs', h1, h2, h3, h4⟩ := h
                  by_cases hcs' : c ∈ bsuccs'
                  · left
                    rw [List.mem_append]
                    right
                    have := (hinv b' c hb' hc).mp (by rw [h2]; exact hcs')
                    rw [hpd] at this
                    exact this
                  · refine Or.inr ⟨blk', bsuccs', h1, h2, ?_, ?_⟩
                    · rw [updateF_ne _ _ _ _ hbc, h3]
                      congr 1
                      exact map_congr_mem bsuccs' _ _
                        (fun x hx => (updateF_ne _ _ _ _
                          (fun hh => hcs' (by rw [← hh]; exact hx))).symm)
                    · rw [updateF_ne _ _ _ _ hbc, updateF_ne _ _ _ _ hbc]
                      exact h4

/-- Fixed-point property of the forward worklist loop, dual to
`backwardRun_fixed`. -/
theorem forwardRun_fixed {F B : Type} (bm : List (String × B))
    (preds succs : List (String × List String))
    (transfer : F → B → F) (meet : List F → F) (checker : F → F → Bool)
    (hchk : ∀ x y, checker x y = true ↔ x = y)
    (hinv : ∀ a b, a ∈ keysOf bm → b ∈ keysOf bm →
      (b ∈ (lookupA succs a).getD [] ↔ a ∈ (lookupA preds b).getD [])) :
    ∀ (fuel : Nat) (inF outF : String → F) (wl : List String)
      (r : (String → F) × (String → F)),
      (∀ b, b ∈ keysOf bm → b ∈ wl ∨ FSat bm preds transfer meet inF outF b) →
      forwardRun bm preds succs transfer meet checker fuel inF outF wl = some r →
      ∀ b, b ∈ keysOf bm → FSat bm preds transfer meet r.1 r.2 b := by
  intro fuel
  induction fuel with
  | zero =>
    intro inF outF wl r hi hrun b hb
    cases wl with
    | nil =>
      cases hrun
      rcases hi b hb with h | h
      · cases h
      · exact h
    | cons c rest => exact absurd hrun (by simp [forwardRun])
  | succ fuel ih =>
    intro inF outF wl r hi hrun b hb
    cases wl with
    | nil =>
      cases hrun
      rcases hi b hb with h | h
      · cases h
      · exact h
    | cons c rest =>
      simp only [forwardRun] at hrun
      cases hbm : lookupA bm c with
      | none => rw [hbm] at hrun; exact absurd hrun (by simp)
      | some blk =>
        cases hpd : lookupA preds c with
        | none => rw [hbm, hpd] at hrun; exact absurd hrun (by simp)
        | some bpreds =>
          rw [hbm, hpd] at hrun
          simp only [] at hrun
          have hc : c ∈ keysOf bm := lookupA_some_mem_keys hbm
          by_cases hck : checker (transfer (meet (bpreds.map outF)) blk) (outF c) = true
          · rw [if_pos hck] at hrun
            have heq : transfer (meet (bpreds.map outF)) blk = outF c := (hchk _ _).mp hck
            refine ih (updateF inF c (meet (bpreds.map outF))) outF rest r ?_ hrun b hb
            intro b' hb'
            by_cases hbc : b' = c
            · right
              refine ⟨blk, bpreds, by rw [hbc]; exact hbm, by rw [hbc]; exact hpd, ?_, ?_⟩
              · rw [hbc, updateF_self]
              · rw [hbc, updateF_self, heq]
            · rcases hi b' hb' with h | h
              · rcases List.mem_cons.mp h with h1 | h1
                · exact absurd h1 hbc
                · exact Or.inl h1
              · obtain ⟨blk', bpreds', h1, h2, h3, h4⟩ := h
                exact Or.inr ⟨blk', bpreds', h1, h2,
                  by rw [updateF_ne _ _ _ _ hbc]; exact h3,
                  by rw [updateF_ne _ _ _ _ hbc]; exact h4⟩
          · rw [if_neg hck] at hrun
            cases hsc : lookupA succs c with
            | none => rw [hsc] at hrun; exact absurd hrun (by simp)
            | some csuccs =>
              rw [hsc] at hrun
              refine ih (updateF inF c (meet (bpreds.map outF)))
                (updateF outF c (transfer (meet (bpreds.map outF)) blk))
                (rest ++ csuccs) r ?_ hrun b hb
              intro b' hb'
              by_cases hbc : b' = c
              · by_cases hcs : c ∈ bpreds
                · left
                  rw [hbc, List.mem_append]
                  right
                  have := (hinv c c hc hc).mpr (by rw [hpd]; exact hcs)
                  rw [hsc] at this
                  exact this
                · right
                  refine ⟨blk, bpreds, by rw [hbc]; exact hbm, by rw [hbc]; exact hpd, ?_, ?_⟩
                  · rw [hbc, updateF_self]
                    congr 1
                    exact map_congr_mem bpreds _ _
                      (fun x hx => (updateF_ne _ _ _ _
                        (fun hh => hcs (by rw [← hh]; exact hx))).symm)
                  · rw [hbc, updateF_self, updateF_self]
              · rcases hi b' hb' with h | h
                · rcases List.mem_cons.mp h with h1 | h1
                  · exact absurd h1 hbc
                  · exact Or.inl (List.mem_append.mpr (Or.inl h1))
                · obtain ⟨blk', bpreds', h1, h2, h3, h4⟩ := h
                  by_cases hcs' : c ∈ bpreds'
                  · left
                    rw [List.mem_append]
                    right
                    have := (hinv c b' hc hb').mpr (by rw [h2]; exact hcs')
                    rw [hsc] at this
                    exact this
                  · refine Or.inr ⟨blk', bpreds', h1, h2, ?_, ?_⟩
                    · rw [updateF_ne _ _ _ _ hbc, h3]
                      congr 1
                      exact map_congr_mem bpreds' _ _
                        (fun x hx => (updateF_ne _ _ _ _
                          (fun hh => hcs' (by rw [← hh]; exact hx))).symm)
                    · rw [updateF_ne _ _ _ _ hbc, updateF_ne _ _ _ _ hbc]
                      exact h4

/-- C2: when `backward_data_flow` terminates on a CFG whose predecessor
and successor maps are mutual inverses, the returned facts satisfy
`out[b] = meet(in[s] for s in succs[b])` and
`in[b] = transfer(out[b], block[b])` for every block `b`; dually, when
`forward_data_flow` terminates, `in[b] = meet(out[p] for p in preds[b])`
and `out[b] = transfer(in[b], block[b])` for every block `b`.  Transfer,
meet and the equality test are deterministic functions, with the equality
test agreeing with equality of facts. -/
theorem C2_dataflow_fixed_point {F B : Type} (bm : List (String × B))
    (preds succs : List (String × List String)) (emptyFact : F)
    (transfer : F → B → F) (meet : List F → F) (checker : F → F → Bool)
    (hchk : ∀ x y, checker x y = true ↔ x = y)
    (hinv : ∀ a b, a ∈ keysOf bm → b ∈ keysOf bm →
      (b ∈ (lookupA succs a).getD [] ↔ a ∈ (lookupA preds b).getD [])) :
    (∀ fuel r,
      backward_data_flow bm preds succs emptyFact transfer meet checker fuel = some r →
      ∀ b, b ∈ keysOf bm → BSat bm succs transfer meet r.1 r.2 b) ∧
    (∀ fuel r,
      forward_data_flow bm preds succs emptyFact transfer meet checker fuel = some r →
      ∀ b, b ∈ keysOf bm → FSat bm preds transfer meet r.1 r.2 b) := by
  constructor
  · intro fuel r hrun
    refine backwardRun_fixed bm preds succs transfer meet checker hchk hinv fuel
      _ _ _ r ?_ hrun
    intro b hb
    left
    rw [List.mem_reverse]
    exact hb
  · intro fuel r hrun
    exact forwardRun_fixed bm preds succs transfer meet checker hchk hinv fuel
      _ _ _ r (fun b hb => Or.inl hb) hrun

/-- Witness for C2 on a one-block CFG with a constant dataflow problem. -/
theorem C2_dataflow_fixed_point_witness :
    ∃ r, backward_data_flow [("A", (0 : Nat))] [("A", ([] : List String))]
        [("A", ([] : List String))] (0 : Nat) (fun f (_ : Nat) => f)
        (fun _ => 0) (fun x y => x == y) 2 = some r ∧
      BSat [("A", (0 : Nat))] [("A", ([] : List String))]
        (fun f (_ : Nat) => f) (fun _ => 0) r.1 r.2 "A" := by
  have hinv : ∀ a b, a ∈ keysOf [("A", (0 : Nat))] → b ∈ keysOf [("A", (0 : Nat))] →
      (b ∈ (lookupA [("A", ([] : List String))] a).getD [] ↔
        a ∈ (lookupA [("A", ([] : List String))] b).getD []) := by
    intro a b ha hb
    have ha' : a = "A" := by simpa [keysOf] using ha
    have hb' : b = "A" := by simpa [keysOf] using hb
    subst ha'
    subst hb'
    decide
  have hs : (backward_data_flow [("A", (0 : Nat))] [("A", ([] : List String))]
      [("A", ([] : List String))] (0 : Nat) (fun f (_ : Nat) => f)
      (fun _ => 0) (fun x y => x == y) 2).isSome = true := rfl
  obtain ⟨r, hr⟩ := Option.isSome_iff_exists.mp hs
  exact ⟨r, hr, (C2_dataflow_fixed_point [("A", (0 : Nat))] [("A", [])] [("A", [])] 0
    (fun f (_ : Nat) => f) (fun _ => 0) (fun x y => x == y)
    (fun x y => by simp) hinv).1 2 r hr "A" (by decide)⟩

/-! ### Liveness analysis (`lib/liveness_analysis.py`)

Instructions are Python dicts; the fields read anywhere in the analysed
code are `label`, `op`, `dest`, `args` and `labels`, each absent field
modelled as `none` / `[]`.  Python sets of variable names are modelled as
lists up to membership, with set insertion appending new elements. -/

structure Instr where
  label : Option String
  op : Option String
  dest : Option String
  args : List String
  labels : List String
deriving DecidableEq

/-- Python `s.union(t)`. -/
def setUnion (s t : List String) : List String := t.foldl insertR s

/-- `gen(block)`: variables written in the block. -/
def gen (block : List Instr) : List String :=
  block.foldl (fun acc i =>
    match i.dest with
    | some d => insertR acc d
    | none => acc) []

/-- The loop of `use(block)`, carrying the `defined` and `used` sets. -/
def useAux : List Instr → List String → List String → List String
  | [], _, used => used
  | i :: rest, defined, used =>
    let used' := (i.args.filter (fun v => !(defined.contains v))).foldl insertR used
    let defined' :=
      match i.dest with
      | some d => insertR defined d
      | none => defined
    useAux rest defined' used'

/-- `use(block)`: variables read before they are written in the block. -/
def use (block : List Instr) : List String := useAux block [] []

/-- The liveness `transfer_fn`: `use(blk) ∪ (out - gen(blk))`. -/
def transfer_fn (out : List String) (blk : List Instr) : List String :=
  setUnion (use blk) (out.filter (fun v => !((gen blk).contains v)))

/-- The liveness `meet_fn`: fold set union over the facts. -/
def meet_fn (facts : List (List String)) : List String :=
  facts.foldl setUnion []

/-- The liveness `fact_equality_checker`: Python set equality. -/
def fact_equality_checker (s t : List String) : Bool :=
  s.all (fun x => t.contains x) && t.all (fun x => s.contains x)

/-- `liveness_analysis`: backward dataflow with the liveness functions and
the empty set as the initial fact. -/
def liveness_analysis (bm : List (String × List Instr))
    (preds succs : List (String × List String)) (fuel : Nat) :
    Option ((String → List String) × (String → List String)) :=
  backward_data_flow bm preds succs [] transfer_fn meet_fn
    fact_equality_checker fuel

theorem mem_setUnion (s t : List String) (a : String) :
    a ∈ setUnion s t ↔ a ∈ s ∨ a ∈ t := by
  induction t generalizing s with
  | nil => simp [setUnion]
  | cons h t ih =>
    simp only [setUnion, List.foldl_cons] at ih ⊢
    rw [ih (insertR s h), mem_insertR]
    constructor
    · rintro (⟨hs | he⟩ | ht)
      · exact Or.inl hs
      · exact Or.inr (by simp [he])
      · exact Or.inr (by simp [ht])
    · rintro (hs | ht)
      · exact Or.inl (Or.inl hs)
      · rcases List.mem_cons.mp ht with he | ht
        · exact Or.inl (Or.inr he)
        · exact Or.inr ht

theorem mem_transfer_fn (out : List String) (blk : List Instr) (v : String) :
    v ∈ transfer_fn out blk ↔ v ∈ use blk ∨ (v ∈ out ∧ v ∉ gen blk) := by
  rw [transfer_fn, mem_setUnion]
  simp [List.mem_filter, List.contains, List.elem_eq_mem]

theorem mem_meet_fn_aux (facts : List (List String)) (acc : List String)
    (x : String) :
    x ∈ facts.foldl setUnion acc ↔ x ∈ acc ∨ ∃ f ∈ facts, x ∈ f := by
  induction facts generalizing acc with
  | nil => simp
  | cons f fs ih =>
    simp only [List.foldl_cons]
    rw [ih (setUnion acc f), mem_setUnion]
    constructor
    · rintro (⟨ha | hf⟩ | ⟨g, hg, hx⟩)
      · exact Or.inl ha
      · exact Or.inr ⟨f, by simp, hf⟩
      · exact Or.inr ⟨g, by simp [hg], hx⟩
    · rintro (ha | ⟨g, hg, hx⟩)
      · exact Or.inl (Or.inl ha)
      · rcases List.mem_cons.mp hg with he | hg
        · exact Or.inl (Or.inr (he ▸ hx))
        · exact Or.inr ⟨g, hg, hx⟩

/-- C10: the liveness transfer function is monotone with respect to set
inclusion — if `S ⊆ T` then `use(blk) ∪ (S − gen(blk)) ⊆
use(blk) ∪ (T − gen(blk))`; moreover every variable in the transfer
output comes from `use(blk)` or from the input fact (so facts stay inside
the finite universe of names occurring in the program), and the meet is
exactly set union of the incoming facts. -/
theorem C10_transfer_monotone (blk : List Instr) (S T : List String)
    (hST : ∀ v, v ∈ S → v ∈ T) :
    (∀ v, v ∈ transfer_fn S blk → v ∈ transfer_fn T blk) ∧
    (∀ v, v ∈ transfer_fn S blk → v ∈ use blk ∨ v ∈ S) ∧
    (∀ facts x, x ∈ meet_fn facts ↔ ∃ f ∈ facts, x ∈ f) := by
  refine ⟨?_, ?_, ?_⟩
  · intro v hv
    rw [mem_transfer_fn] at hv ⊢
    rcases hv with hu | ⟨hS, hg⟩
    · exact Or.inl hu
    · exact Or.inr ⟨hST v hS, hg⟩
  · intro v hv
    rw [mem_transfer_fn] at hv
    rcases hv with hu | ⟨hS, _⟩
    · exact Or.inl hu
    · exact Or.inr hS
  · intro facts x
    rw [meet_fn, mem_meet_fn_aux]
    simp

/-- Witness for C10 on a one-instruction block with `S = {x} ⊆ {x, y} = T`. -/
theorem C10_transfer_monotone_witness :
    (∀ v, v ∈ ["x"] → v ∈ ["x", "y"]) ∧
    (∀ v, v ∈ transfer_fn ["x"] [Instr.mk none none (some "d") ["a"] []] →
      v ∈ transfer_fn ["x", "y"] [Instr.mk none none (some "d") ["a"] []]) := by
  have hST : ∀ v, v ∈ ["x"] → v ∈ ["x", "y"] := by
    intro v hv
    simp only [List.mem_cons, List.not_mem_nil, or_false] at hv
    simp [hv]
  exact ⟨hST, (C10_transfer_monotone [Instr.mk none none (some "d") ["a"] []]
    ["x"] ["x", "y"] hST).1⟩

theorem backwardRun_mono {F B : Type} (bm : List (String × B))
    (preds succs : List (String × List String))
    (transfer : F → B → F) (meet : List F → F) (checker : F → F → Bool) :
    ∀ (fuel : Nat) (inF outF : String → F) (wl : List String)
      (r : (String → F) × (String → F)),
      backwardRun bm preds succs transfer meet checker fuel inF outF wl = some r →
      backwardRun bm preds succs transfer meet checker (fuel + 1) inF outF wl
        = some r := by
  intro fuel
  induction fuel with
  | zero =>
    intro inF outF wl r h
    cases wl with
    | nil => exact h
    | cons c rest => exact absurd h (by simp [backwardRun])
  | succ n ih =>
    intro inF outF wl r h
    cases wl with
    | nil => exact h
    | cons c rest =>
      simp only [backwardRun] at h ⊢
      cases hbm : lookupA bm c with
      | none => rw [hbm] at h; exact absurd h (by simp)
      | some blk =>
        cases hsc : lookupA succs c with
        | none => rw [hbm, hsc] at h; exact absurd h (by simp)
        | some bsuccs =>
          rw [hbm, hsc] at h
          simp only [] at h ⊢
          by_cases hck : checker (transfer (meet (bsuccs.map inF)) blk) (inF c)
              = true
          · rw [if_pos hck] at h ⊢
            exact ih _ _ _ _ h
          · rw [if_neg hck] at h ⊢
            cases hpd : lookupA preds c with
            | none => rw [hpd] at h; exact absurd h (by simp)
            | some bpreds =>
              rw [hpd] at h
              simp only [] at h ⊢
              exact ih _ _ _ _ h

theorem backwardRun_mono_le {F B : Type} (bm : List (String × B))
    (preds succs : List (String × List String))
    (transfer : F → B → F) (meet : List F → F) (checker : F → F → Bool)
    (inF outF : String → F) (wl : List String)
    (r : (String → F) × (String → F)) :
    ∀ fuel g, fuel ≤ g →
      backwardRun bm preds succs transfer meet checker fuel inF outF wl = some r →
      backwardRun bm preds succs transfer meet checker g inF outF wl = some r := by
  intro fuel g
  induction g with
  | zero =>
    intro hle h
    rw [Nat.le_zero.mp hle] at h
    exact h
  | succ n ih =>
    intro hle h
    rcases Nat.lt_or_ge fuel (n + 1) with hlt | hge
    · exact backwardRun_mono bm preds succs transfer meet checker n inF outF wl r
        (ih (Nat.lt_succ_iff.mp hlt) h)
    · rw [le_antisymm hle hge] at h
      exact h

/-- The diamond CFG of the C7 scenario: blocks `A → B`, `A → C`,
`B → D`, `C → D`; `B` defines `x`, `D` reads `x`, `A` and `C` are empty. -/
def C7bm : List (String × List Instr) :=
  [("A", []), ("B", [Instr.mk none none (some "x") [] []]),
   ("C", []), ("D", [Instr.mk none none none ["x"] []])]

def C7preds : List (String × List String) :=
  [("A", []), ("B", ["A"]), ("C", ["A"]), ("D", ["B", "C"])]

def C7succs : List (String × List String) :=
  [("A", ["B", "C"]), ("B", ["D"]), ("C", ["D"]), ("D", [])]

/-- The fuel-8 run of the analysis on the diamond CFG. -/
def C7run : Option ((String → List String) × (String → List String)) :=
  liveness_analysis C7bm C7preds C7succs 8

theorem C7run_isSome : C7run.isSome = true := rfl

/-- C7 counterexample: on the diamond CFG the analysis terminates (the
worklist drains in 7 iterations, well within fuel 8) but returns
`live_in[C] = {x}` and `live_out[A] = {x}`, not the empty sets the
specification predicts — may-liveness propagates `x` backwards through
the empty block `C`. -/
theorem C7_counterexample :
    ∃ r, liveness_analysis C7bm C7preds C7succs 8 = some r ∧
      r.1 "C" = ["x"] ∧ r.2 "A" = ["x"] :=
  ⟨C7run.get C7run_isSome, (Option.some_get C7run_isSome).symm, rfl, rfl⟩

/-- C7 (amended): on the diamond CFG, every terminating run of
`liveness_analysis` returns `live_out[B] = {x}`, `live_in[D] = {x}`,
`live_in[C] = {x}` and `live_out[A] = {x}`. -/
theorem C7_diamond_liveness (fuel : Nat)
    (r : (String → List String) × (String → List String))
    (h : liveness_analysis C7bm C7preds C7succs fuel = some r) :
    r.2 "B" = ["x"] ∧ r.1 "D" = ["x"] ∧ r.1 "C" = ["x"] ∧ r.2 "A" = ["x"] := by
  have hr : r = C7run.get C7run_isSome := by
    have h1 : backwardRun C7bm C7preds C7succs transfer_fn meet_fn
        fact_equality_checker fuel (fun _ => []) (fun _ => [])
        (keysOf C7bm).reverse = some r := h
    have h2 : backwardRun C7bm C7preds C7succs transfer_fn meet_fn
        fact_equality_checker 8 (fun _ => []) (fun _ => [])
        (keysOf C7bm).reverse = some (C7run.get C7run_isSome) :=
      (Option.some_get C7run_isSome).symm
    have h1' := backwardRun_mono_le C7bm C7preds C7succs transfer_fn meet_fn
      fact_equality_checker (fun _ => []) (fun _ => []) (keysOf C7bm).reverse r
      fuel (max fuel 8) (le_max_left fuel 8) h1
    have h2' := backwardRun_mono_le C7bm C7preds C7succs transfer_fn meet_fn
      fact_equality_checker (fun _ => []) (fun _ => []) (keysOf C7bm).reverse
      (C7run.get C7run_isSome) 8 (max fuel 8) (le_max_right fuel 8) h2
    exact Option.some.inj (h1'.symm.trans h2')
  rw [hr]
  exact ⟨rfl, rfl, rfl, rfl⟩

/-- Witness for the amended C7 on the run with fuel 8. -/
theorem C7_diamond_liveness_witness :
    ∃ r, liveness_analysis C7bm C7preds C7succs 8 = some r ∧
      r.2 "B" = ["x"] ∧ r.1 "D" = ["x"] ∧ r.1 "C" = ["x"] ∧ r.2 "A" = ["x"] :=
  ⟨C7run.get C7run_isSome, (Option.some_get C7run_isSome).symm,
    C7_diamond_liveness 8 _ (Option.some_get C7run_isSome).symm⟩
/-! ### Fresh names (`lib/utils.py`)

`fresh(seed, names)` returns the first `seed + str(i)` (`i = 1, 2, …`)
not in `names`.  The Python loop is unbounded; among the first
`names.length + 1` candidates one is always free (they are pairwise
distinct and `names` is shorter), so the search is bounded there and the
fallback branch below is unreachable. -/

def fresh (seed : String) (names : List String) : String :=
  match (List.range (names.length + 1)).find?
      (fun i => !(names.contains (seed ++ Nat.repr (i + 1)))) with
  | some i => seed ++ Nat.repr (i + 1)
  | none => seed

/-- Decimal value of a digit character (0 for anything else). -/
def chVal (c : Char) : Nat :=
  if c = '1' then 1 else if c = '2' then 2 else if c = '3' then 3 else
  if c = '4' then 4 else if c = '5' then 5 else if c = '6' then 6 else
  if c = '7' then 7 else if c = '8' then 8 else if c = '9' then 9 else 0

/-- Value of a decimal digit string. -/
def lVal (l : List Char) : Nat := l.foldl (fun a c => 10 * a + chVal c) 0

theorem chVal_digitChar : ∀ m, m < 10 → chVal (Nat.digitChar m) = m := by
  decide

theorem toDigitsCore_append (f : Nat) :
    ∀ (n : Nat) (ds : List Char),
      Nat.toDigitsCore 10 f n ds = Nat.toDigitsCore 10 f n [] ++ ds := by
  induction f with
  | zero => intro n ds; simp [Nat.toDigitsCore]
  | succ f ih =>
    intro n ds
    by_cases h : n / 10 = 0
    · simp [Nat.toDigitsCore, h]
    · simp only [Nat.toDigitsCore, if_neg h]
      rw [ih (n / 10) (Nat.digitChar (n % 10) :: ds),
        ih (n / 10) [Nat.digitChar (n % 10)], List.append_assoc]
      rfl

theorem lVal_append_singleton (l : List Char) (c : Char) :
    lVal (l ++ [c]) = 10 * lVal l + chVal c := by
  simp [lVal, List.foldl_append]

theorem toDigitsCore_val (f : Nat) :
    ∀ n, 0 < f → n < 10 ^ f → lVal (Nat.toDigitsCore 10 f n []) = n := by
  induction f with
  | zero => intro n h; exact absurd h (by simp)
  | succ f ih =>
    intro n _ hn
    by_cases h : n / 10 = 0
    · have hlt : n < 10 := by
        by_contra hge
        exact absurd (Nat.div_eq_zero_iff (by norm_num) |>.mp h) hge
      simp only [Nat.toDigitsCore, if_pos h]
      rw [lVal]
      simp only [List.foldl_cons, List.foldl_nil]
      rw [chVal_digitChar (n % 10) (Nat.mod_lt n (by norm_num))]
      omega
    · have hf : 0 < f := by
        rcases Nat.eq_zero_or_pos f with hf0 | hf0
        · subst hf0
          rw [pow_succ, pow_zero, one_mul] at hn
          exact absurd ((Nat.div_eq_zero_iff (by norm_num)).mpr hn) h
        · exact hf0
      have hdiv : n / 10 < 10 ^ f := by
        rw [Nat.div_lt_iff_lt_mul (by norm_num)]
        calc n < 10 ^ (f + 1) := hn
        _ = 10 ^ f * 10 := by rw [pow_succ]
      simp only [Nat.toDigitsCore, if_neg h]
      rw [toDigitsCore_append f (n / 10) [Nat.digitChar (n % 10)],
        lVal_append_singleton, ih (n / 10) hf hdiv,
        chVal_digitChar (n % 10) (Nat.mod_lt n (by norm_num))]
      exact Nat.div_add_mod n 10

theorem Nat_repr_inj (m n : Nat) (h : Nat.repr m = Nat.repr n) : m = n := by
  have hd : Nat.toDigits 10 m = Nat.toDigits 10 n := congrArg String.data h
  have hm : lVal (Nat.toDigitsCore 10 (m + 1) m []) = m :=
    toDigitsCore_val (m + 1) m (Nat.succ_pos m)
      (lt_of_lt_of_le (Nat.lt_pow_self (by norm_num) m)
        (Nat.pow_le_pow_right (by norm_num) (Nat.le_succ m)))
  have hn : lVal (Nat.toDigitsCore 10 (n + 1) n []) = n :=
    toDigitsCore_val (n + 1) n (Nat.succ_pos n)
      (lt_of_lt_of_le (Nat.lt_pow_self (by norm_num) n)
        (Nat.pow_le_pow_right (by norm_num) (Nat.le_succ n)))
  rw [← hm, ← hn]
  rw [Nat.toDigits] at hd
  rw [hd]
  rfl

theorem string_append_left_cancel (s t u : String) (h : s ++ t = s ++ u) :
    t = u := by
  have hd : s.data ++ t.data = s.data ++ u.data := by
    have := congrArg String.data h
    simpa using this
  have h2 : t.data = u.data := List.append_cancel_left hd
  cases t with
  | mk td =>
    cases u with
    | mk ud => exact congrArg String.mk h2

theorem fresh_candidate_inj (seed : String) :
    Function.Injective (fun i : Nat => seed ++ Nat.repr (i + 1)) := by
  intro i j hij
  have h1 : Nat.repr (i + 1) = Nat.repr (j + 1) :=
    string_append_left_cancel seed _ _ hij
  have := Nat_repr_inj (i + 1) (j + 1) h1
  omega

theorem fresh_not_mem (seed : String) (names : List String) :
    fresh seed names ∉ names := by
  rw [fresh]
  cases hf : (List.range (names.length + 1)).find?
      (fun i => !(names.contains (seed ++ Nat.repr (i + 1)))) with
  | some i =>
    have hp := List.find?_some hf
    simp only [Bool.not_eq_true', List.contains, List.elem_eq_mem,
      decide_eq_false_iff_not] at hp
    simpa using hp
  | none =>
    exfalso
    have hall : ∀ i ∈ List.range (names.length + 1),
        seed ++ Nat.repr (i + 1) ∈ names := by
      intro i hi
      have := List.find?_eq_none.mp hf i hi
      simpa [List.contains, List.elem_eq_mem] using this
    have hsub : (Finset.range (names.length + 1)).image
        (fun i => seed ++ Nat.repr (i + 1)) ⊆ names.toFinset := by
      intro x hx
      simp only [Finset.mem_image, Finset.mem_range] at hx
      obtain ⟨i, hi, rfl⟩ := hx
      exact List.mem_toFinset.mpr (hall i (List.mem_range.mpr hi))
    have hcard := Finset.card_le_card hsub
    rw [Finset.card_image_of_injective _ (fresh_candidate_inj seed),
      Finset.card_range] at hcard
    exact absurd (le_trans hcard names.toFinset_card_le) (by omega)

/-! ### CFG construction (`lib/control_flow_graph.py`)

Instruction dicts reuse `Instr`.  Python raising (`KeyError`,
`IndexError`, `StopIteration`, `ValueError`, a failing `assert`) is
modelled by `none`.  `name.startswith("_b")` is the two-character prefix
test on the string's characters. -/

def TERMINATOR_OPS : List String := ["br", "jmp", "ret"]

/-- Python `s.startswith("_b")`. -/
def startsWith_b (s : String) : Bool :=
  match s.data with
  | '_' :: 'b' :: _ => true
  | _ => false

/-- The `form_blocks` generator; `cur` is the block under construction. -/
def form_blocksAux : List Instr → List Instr → List (List Instr)
  | [], cur => if cur.isEmpty then [] else [cur]
  | i :: rest, cur =>
    match i.op with
    | some op =>
      if op ∈ TERMINATOR_OPS then (cur ++ [i]) :: form_blocksAux rest []
      else form_blocksAux rest (cur ++ [i])
    | none =>
      if cur.isEmpty then form_blocksAux rest [i]
      else cur :: form_blocksAux rest [i]

def form_blocks (instrs : List Instr) : List (List Instr) :=
  form_blocksAux instrs []

def form_line_blocks (instrs : List Instr) : List (List Instr) :=
  instrs.map (fun i => [i])

/-- `generate_block_map`: name each block after its leading label (which
is stripped) or a fresh `_b<i>` name; `block[0]` on an empty block is an
`IndexError`. -/
def generate_block_mapAux :
    List (List Instr) → List (String × List Instr) →
    Option (List (String × List Instr))
  | [], acc => some acc
  | block :: rest, acc =>
    match block with
    | [] => none
    | b0 :: btail =>
      match b0.label with
      | some name => generate_block_mapAux rest (setVal acc name btail)
      | none => generate_block_mapAux rest
          (setVal acc (fresh "_b" (keysOf acc)) block)

def generate_block_map (blocks : List (List Instr)) :
    Option (List (String × List Instr)) :=
  generate_block_mapAux blocks []

/-- `successors(instr)`: jump targets of a terminator; a missing `op` is
a `KeyError` and a non-terminator a `ValueError`. -/
def successors (instr : Instr) : Option (List String) :=
  match instr.op with
  | some op =>
    if op = "jmp" ∨ op = "br" then some instr.labels
    else if op = "ret" then some []
    else none
  | none => none

/-- The terminator `add_terminators` appends at index `i`: `ret` in the
last block, otherwise a `jmp` to the next key (an out-of-range index is
an `IndexError`). -/
def terminatorFor (keys : List String) (i : Nat) : Option Instr :=
  if i = keys.length - 1 then some (Instr.mk none (some "ret") none [] [])
  else
    match keys.get? (i + 1) with
    | some dest => some (Instr.mk none (some "jmp") none [] [dest])
    | none => none

/-- The `add_terminators` loop; `i` is the index of the current block and
`keys` the (unchanging) key list of the whole map. -/
def add_terminatorsGo (keys : List String) :
    Nat → List (String × List Instr) → Option (List (String × List Instr))
  | _, [] => some []
  | i, (name, block) :: rest =>
    let newBlock : Option (List Instr) :=
      match block.getLast? with
      | none =>
        match terminatorFor keys i with
        | some t => some [t]
        | none => none
      | some last =>
        match last.op with
        | none => none
        | some op =>
          if op ∈ TERMINATOR_OPS then some block
          else
            match terminatorFor keys i with
            | some t => some (block ++ [t])
            | none => none
    match newBlock with
    | some nb =>
      match add_terminatorsGo keys (i + 1) rest with
      | some r => some ((name, nb) :: r)
      | none => none
    | none => none

def add_terminators (bm : List (String × List Instr)) :
    Option (List (String × List Instr)) :=
  add_terminatorsGo (keysOf bm) 0 bm

/-- `add_entry`: if any instruction references the first block's name,
prepend a fresh empty block; `next(iter(...))` on an empty map raises. -/
def add_entry (bm : List (String × List Instr)) :
    Option (List (String × List Instr)) :=
  match bm with
  | [] => none
  | (first_lbl, _) :: _ =>
    if (bm.map Prod.snd).flatten.any (fun i => i.labels.contains first_lbl) then
      some ((fresh "entry" (keysOf bm), []) :: bm)
    else some bm

/-- `m[k].append(v)`; `none` on a missing key. -/
def appendIfKey (m : Edges) (k v : String) : Option Edges :=
  match lookupA m k with
  | some l => some (setVal m k (l ++ [v]))
  | none => none

/-- `m[k].remove(v)`: drop the first occurrence; `none` on a missing key
(`KeyError`) or a missing value (`ValueError`). -/
def removeValKey (m : Edges) (k v : String) : Option Edges :=
  match lookupA m k with
  | some l => if v ∈ l then some (setVal m k (l.erase v)) else none
  | none => none

/-- The inner loop of `edges`: record `name → succ` for each target. -/
def edgesFold (name : String) :
    List String → Edges → Edges → Option (Edges × Edges)
  | [], preds, succs => some (preds, succs)
  | succ :: ss, preds, succs =>
    match appendIfKey succs name succ with
    | none => none
    | some succs1 =>
      match appendIfKey preds succ name with
      | none => none
      | some preds1 => edgesFold name ss preds1 succs1

def edgesGo :
    List (String × List Instr) → Edges → Edges → Option (Edges × Edges)
  | [], preds, succs => some (preds, succs)
  | (name, block) :: rest, preds, succs =>
    match block.getLast? with
    | none => edgesGo rest preds succs
    | some last =>
      match successors last with
      | none => none
      | some ss =>
        match edgesFold name ss preds succs with
        | none => none
        | some (preds1, succs1) => edgesGo rest preds1 succs1

/-- `edges(blocks)`: predecessor and successor maps, initialised to `[]`
for every block name; empty blocks contribute no edges. -/
def edges (bm : List (String × List Instr)) : Option (Edges × Edges) :=
  edgesGo bm (bm.map (fun p => (p.1, []))) (bm.map (fun p => (p.1, [])))

def remove_inserted_jmpsBlock : List Instr → Option (List Instr)
  | [] => some []
  | i :: rest =>
    match i.op with
    | none => none
    | some op =>
      if op = "jmp" then
        if i.labels.length > 1 then none
        else
          match i.labels with
          | [] => none
          | l0 :: _ =>
            match remove_inserted_jmpsBlock rest with
            | some r => some (if startsWith_b l0 then r else i :: r)
            | none => none
      else
        match remove_inserted_jmpsBlock rest with
        | some r => some (i :: r)
        | none => none

def remove_inserted_jmps :
    List (String × List Instr) → Option (List (String × List Instr))
  | [] => some []
  | (name, block) :: rest =>
    match remove_inserted_jmpsBlock block, remove_inserted_jmps rest with
    | some b, some r => some ((name, b) :: r)
    | _, _ => none

/-- The loop of `restrict_to_single_instr`.  `oldKeys` is the key list of
the ORIGINAL block map: `fresh` is called on `cfg.block_map`, which never
grows, so two split blocks receive the SAME fresh name and the second
overwrites the first (`setVal`). -/
def restrict_to_single_instrGo (oldKeys : List String) :
    List (String × List Instr) → List (String × List Instr) → Edges → Edges →
    Option (List (String × List Instr) × Edges × Edges)
  | [], newBm, preds, succs => some (newBm, preds, succs)
  | (name, block) :: rest, newBm, preds, succs =>
    match block with
    | [] => restrict_to_single_instrGo oldKeys rest (setVal newBm name block)
        preds succs
    | [_] => restrict_to_single_instrGo oldKeys rest (setVal newBm name block)
        preds succs
    | [instr1, instr2] =>
      let nb := fresh "_b" oldKeys
      let newBm1 := setVal (setVal newBm name [instr1]) nb [instr2]
      let preds1 := setVal preds nb []
      let succs1 := setVal succs nb []
      match instr2.op with
      | none => none
      | some op =>
        if op = "ret" then
          match appendIfKey succs1 name nb with
          | none => none
          | some succs2 =>
            match appendIfKey preds1 nb name with
            | none => none
            | some preds2 =>
              restrict_to_single_instrGo oldKeys rest newBm1 preds2 succs2
        else if op = "jmp" then
          match instr2.labels with
          | [c] =>
            match appendIfKey succs1 name nb with
            | none => none
            | some succs2 =>
              match removeValKey succs2 name c with
              | none => none
              | some succs3 =>
                match appendIfKey succs3 nb c with
                | none => none
                | some succs4 =>
                  match appendIfKey preds1 nb name with
                  | none => none
                  | some preds2 =>
                    match removeValKey preds2 c name with
                    | none => none
                    | some preds3 =>
                      match appendIfKey preds3 c nb with
                      | none => none
                      | some preds4 =>
                        restrict_to_single_instrGo oldKeys rest newBm1
                          preds4 succs4
          | _ => none
        else none
    | _ => none

def restrict_to_single_instr (bm : List (String × List Instr))
    (preds succs : Edges) :
    Option (List (String × List Instr) × Edges × Edges) :=
  restrict_to_single_instrGo (keysOf bm) bm [] preds succs

def reassembleBlock : List Instr → Option (List Instr)
  | [] => some []
  | i :: rest =>
    match i.op with
    | none => none
    | some op =>
      match reassembleBlock rest with
      | none => none
      | some r =>
        if op = "jmp" then
          some (match i.labels with
            | [l0] => if startsWith_b l0 then r else i :: r
            | _ => r)
        else some (i :: r)

/-- `reassemble`: emit a label for every non-`_b` block name, then the
block's instructions, dropping jumps to generated `_b` labels. -/
def reassemble : List (String × List Instr) → Option (List Instr)
  | [] => some []
  | (name, block) :: rest =>
    match reassembleBlock block, reassemble rest with
    | some bi, some ri =>
      some ((if startsWith_b name then []
             else [Instr.mk (some name) none none [] []]) ++ bi ++ ri)
    | _, _ => none

/-- `construct_cfg` with `block_only=False`; the two remaining options
are explicit.  The Python default is `per_line=False`,
`remove_extra_jmps=True`. -/
def construct_cfg (instrs : List Instr) (per_line remove_extra_jmps : Bool) :
    Option (List (String × List Instr) × Edges × Edges) :=
  let blocks := if per_line then form_line_blocks instrs else form_blocks instrs
  match generate_block_map blocks with
  | none => none
  | some bm0 =>
    match add_terminators bm0 with
    | none => none
    | some bm1 =>
      match add_entry bm1 with
      | none => none
      | some bm2 =>
        match edges bm2 with
        | none => none
        | some (preds, succs) =>
          if remove_extra_jmps then
            match remove_inserted_jmps bm2 with
            | none => none
            | some bm3 => restrict_to_single_instr bm3 preds succs
          else some (bm2, preds, succs)

/-- Inner loop of `remove_critical_edges`: split every in-edge `p → name`.
`fresh` here is called on the GROWING new block map. -/
def rceFold (name : String) :
    List String → List (String × List Instr) → Edges → Edges →
    Option (List (String × List Instr) × Edges × Edges)
  | [], nbm, npreds, nsuccs => some (nbm, npreds, nsuccs)
  | p :: ps, nbm, npreds, nsuccs =>
    let nb := fresh "_b" (keysOf nbm)
    let nbm1 := setVal nbm nb []
    let npreds1 := setVal npreds nb [p]
    let nsuccs1 := setVal nsuccs nb [name]
    match removeValKey nsuccs1 p name with
    | none => none
    | some nsuccs2 =>
      match removeValKey npreds1 name p with
      | none => none
      | some npreds2 => rceFold name ps nbm1 npreds2 nsuccs2

def remove_critical_edgesGo (origPreds : Edges) :
    List (String × List Instr) → List (String × List Instr) → Edges → Edges →
    Option (List (String × List Instr) × Edges × Edges)
  | [], nbm, npreds, nsuccs => some (nbm, npreds, nsuccs)
  | (name, _) :: rest, nbm, npreds, nsuccs =>
    match lookupA origPreds name with
    | none => none
    | some ps =>
      if ps.length > 1 then
        match rceFold name ps nbm npreds nsuccs with
        | none => none
        | some (a, b, c) => remove_critical_edgesGo origPreds rest a b c
      else remove_critical_edgesGo origPreds rest nbm npreds nsuccs

/-- `remove_critical_edges`: iterate over the ORIGINAL block map and
predecessors while mutating a copy. -/
def remove_critical_edges (bm : List (String × List Instr))
    (preds succs : Edges) :
    Option (List (String × List Instr) × Edges × Edges) :=
  remove_critical_edgesGo preds bm bm preds succs

/-- A block ends in a terminator instruction. -/
def EndsInTerminator (blk : List Instr) : Prop :=
  ∃ last op, blk.getLast? = some last ∧ last.op = some op ∧
    op ∈ TERMINATOR_OPS

def constInstr : Instr := Instr.mk none (some "const") (some "v") [] []

theorem C3cex_isSome :
    (construct_cfg [constInstr] false true).isSome = true := rfl

/-- C3 counterexample: with the default options, a single `const`
instruction yields a CFG whose block `_b1` is `[const]` — it does not end
in a terminator, because `restrict_to_single_instr` moves the appended
`ret` into a separate block. -/
theorem C3_counterexample :
    ∃ r, construct_cfg [constInstr] false true = some r ∧
      lookupA r.1 "_b1" = some [constInstr] ∧ ¬ EndsInTerminator [constInstr] :=
  ⟨Option.get _ C3cex_isSome, (Option.some_get C3cex_isSome).symm, rfl, by
    rintro ⟨last, op, h1, h2, h3⟩
    simp only [List.getLast?_singleton, Option.some.injEq] at h1
    rw [← h1] at h2
    simp only [constInstr, Option.some.injEq] at h2
    rw [← h2] at h3
    simp [TERMINATOR_OPS] at h3⟩

def cInstr1 : Instr := Instr.mk none (some "const") (some "v1") [] []

def cInstr2 : Instr := Instr.mk none (some "const") (some "v2") [] []

def labelA2 : Instr := Instr.mk (some "A") none none [] []


def labelA : Instr := Instr.mk (some "A") none none [] []

def jmpA : Instr := Instr.mk none (some "jmp") none [] ["A"]

theorem C8cex_isSome :
    (construct_cfg [labelA, jmpA] false true).isSome = true := rfl

/-- C8 counterexample: on `[label A, jmp A]` the first block's name is
referenced, so `add_entry` synthesizes `entry1` — but the synthesized
block is empty and `edges` skips empty blocks, so `successors[entry1]`
is `[]`, not `[A]`: the new first block does not transfer control to the
old one in the computed successor map. -/
theorem C8_counterexample :
    ∃ r, construct_cfg [labelA, jmpA] false true = some r ∧
      keysOf r.1 = ["entry1", "A"] ∧
      lookupA r.1 "entry1" = some [] ∧
      lookupA r.2.1 "entry1" = some [] ∧
      lookupA r.2.2 "entry1" = some [] :=
  ⟨Option.get _ C8cex_isSome, (Option.some_get C8cex_isSome).symm,
    rfl, rfl, rfl, rfl⟩

def bmC9 : List (String × List Instr) :=
  [("A", [Instr.mk none (some "jmp") none [] ["C"]]),
   ("B", [Instr.mk none (some "jmp") none [] ["C"]]),
   ("C", [Instr.mk none (some "ret") none [] []])]

def predsC9 : Edges := [("A", []), ("B", []), ("C", ["A", "B"])]

def succsC9 : Edges := [("A", ["C"]), ("B", ["C"]), ("C", [])]

theorem C9run_isSome :
    (remove_critical_edges bmC9 predsC9 succsC9).isSome = true := rfl

/-- C9: on the CFG `A → C`, `B → C` no edge is critical (each source has
exactly one successor), yet `remove_critical_edges` splits both in-edges
of `C`, adding blocks `_b1` and `_b2`; moreover `successors[A]` becomes
`[]` — the split never records the new block as a successor of `A` — so
the original control-flow connection is dropped on the source side and
the mutual-inverse invariant fails (`C ∈ successors[_b1]` but
`_b1 ∉ predecessors[C]`). -/
theorem C9_noncritical_split :
    ∃ r, remove_critical_edges bmC9 predsC9 succsC9 = some r ∧
      (∀ a ∈ keysOf succsC9, ((lookupA succsC9 a).getD []).length ≤ 1) ∧
      keysOf r.1 = ["A", "B", "C", "_b1", "_b2"] ∧
      lookupA r.2.2 "A" = some [] ∧
      "C" ∈ (lookupA r.2.2 "_b1").getD [] ∧
      "_b1" ∉ (lookupA r.2.1 "C").getD [] :=
  ⟨Option.get _ C9run_isSome, (Option.some_get C9run_isSome).symm,
    by decide, rfl, rfl, by decide, by decide⟩

theorem endsInTerminator_single (i : Instr) (op : String)
    (hop : i.op = some op) (hmem : op ∈ TERMINATOR_OPS) :
    EndsInTerminator [i] :=
  ⟨i, op, rfl, hop, hmem⟩

theorem endsInTerminator_concat (blk : List Instr) (i : Instr) (op : String)
    (hop : i.op = some op) (hmem : op ∈ TERMINATOR_OPS) :
    EndsInTerminator (blk ++ [i]) :=
  ⟨i, op, List.getLast?_concat blk, hop, hmem⟩

theorem terminatorFor_terminated (keys : List String) (i : Nat) (t : Instr)
    (h : terminatorFor keys i = some t) :
    ∃ op, t.op = some op ∧ op ∈ TERMINATOR_OPS := by
  rw [terminatorFor] at h
  split at h
  · cases h
    exact ⟨"ret", rfl, by decide⟩
  · split at h
    · cases h
      exact ⟨"jmp", rfl, by decide⟩
    · exact absurd h (by simp)

theorem add_terminatorsGo_terminated (keys : List String) :
    ∀ (l : List (String × List Instr)) (i : Nat)
      (out : List (String × List Instr)),
      add_terminatorsGo keys i l = some out →
      ∀ p ∈ out, p.2 ≠ [] ∧ EndsInTerminator p.2 := by
  intro l
  induction l with
  | nil =>
    intro i out h p hp
    cases h
    simp at hp
  | cons hd tl ih =>
    intro i out h p hp
    obtain ⟨name, block⟩ := hd
    simp only [add_terminatorsGo] at h
    split at h
    case h_2 => exact absurd h (by simp)
    case h_1 nb heq =>
      split at h
      case h_2 => exact absurd h (by simp)
      case h_1 out' hout' =>
        cases h
        rcases List.mem_cons.mp hp with hph | hph
        · subst hph
          show nb ≠ [] ∧ EndsInTerminator nb
          split at heq
          · -- block.getLast? = none: nb = [terminatorFor]
            split at heq
            · rename_i t ht
              cases heq
              obtain ⟨op, hop, hmem⟩ := terminatorFor_terminated keys i t ht
              exact ⟨by simp, endsInTerminator_single t op hop hmem⟩
            · exact absurd heq (by simp)
          · -- block.getLast? = some last
            rename_i last hlast
            split at heq
            · exact absurd heq (by simp)
            · rename_i op hop
              split at heq
              · rename_i hterm
                cases heq
                refine ⟨?_, ⟨last, op, hlast, hop, hterm⟩⟩
                intro hblk
                rw [hblk] at hlast
                exact absurd hlast (by simp)
              · split at heq
                · rename_i t ht
                  cases heq
                  obtain ⟨op', hop', hmem'⟩ := terminatorFor_terminated keys i t ht
                  exact ⟨by simp, endsInTerminator_concat block t op' hop' hmem'⟩
                · exact absurd heq (by simp)
        · exact ih (i + 1) out' hout' p hph

theorem add_entry_cases (bm bm2 : List (String × List Instr))
    (h : add_entry bm = some bm2) :
    bm2 = bm ∨ bm2 = (fresh "entry" (keysOf bm), []) :: bm := by
  cases bm with
  | nil => exact absurd h (by simp [add_entry])
  | cons hd tl =>
    obtain ⟨f, blk⟩ := hd
    simp only [add_entry] at h
    split at h
    · right
      exact (Option.some.inj h).symm
    · left
      exact (Option.some.inj h).symm

/-- Mutual-inverse property of a predecessor/successor pair. -/
def EdgeInv (preds succs : Edges) : Prop :=
  ∀ a b, b ∈ lookupEdges succs a ↔ a ∈ lookupEdges preds b

theorem appendIfKey_lookup (m : Edges) (k v : String) (m' : Edges)
    (h : appendIfKey m k v = some m') :
    ∃ l, lookupA m k = some l ∧ m' = setVal m k (l ++ [v]) := by
  rw [appendIfKey] at h
  split at h
  · rename_i l hl
    exact ⟨l, hl, (Option.some.inj h).symm⟩
  · exact absurd h (by simp)

theorem lookupEdges_eq (E : Edges) (v : String) :
    lookupEdges E v = (lookupA E v).getD [] := rfl

theorem EdgeInv_append_pair (preds succs : Edges) (name succ : String)
    (l l2 : List String)
    (hs : lookupA succs name = some l) (hp : lookupA preds succ = some l2)
    (hinv : EdgeInv preds succs) :
    EdgeInv (setVal preds succ (l2 ++ [name])) (setVal succs name (l ++ [succ])) := by
  intro a b
  have hls : lookupEdges succs name = l := by rw [lookupEdges_eq, hs]; rfl
  have hlp : lookupEdges preds succ = l2 := by rw [lookupEdges_eq, hp]; rfl
  by_cases ha : a = name <;> by_cases hb : b = succ
  · rw [ha, hb, lookupEdges_setVal_self, lookupEdges_setVal_self]
    simp
  · rw [ha, lookupEdges_setVal_self, lookupEdges_setVal_ne _ _ _ _ hb]
    rw [List.mem_append]
    have := hinv name b
    rw [hls] at this
    simp only [List.mem_singleton, hb, or_false]
    exact this
  · rw [hb, lookupEdges_setVal_self, lookupEdges_setVal_ne _ _ _ _ ha]
    rw [List.mem_append]
    have := hinv a succ
    rw [hlp] at this
    simp only [List.mem_singleton, ha, or_false]
    exact this
  · rw [lookupEdges_setVal_ne _ _ _ _ ha, lookupEdges_setVal_ne _ _ _ _ hb]
    exact hinv a b

theorem edgesFold_inv (name : String) :
    ∀ (ss : List String) (preds succs preds' succs' : Edges),
      edgesFold name ss preds succs = some (preds', succs') →
      EdgeInv preds succs → EdgeInv preds' succs' := by
  intro ss
  induction ss with
  | nil =>
    intro preds succs p' s' h hinv
    cases h
    exact hinv
  | cons sc ss ih =>
    intro preds succs p' s' h hinv
    simp only [edgesFold] at h
    split at h
    · exact absurd h (by simp)
    · rename_i succs1 heq1
      split at h
      · exact absurd h (by simp)
      · rename_i preds1 heq2
        obtain ⟨l, hs, rfl⟩ := appendIfKey_lookup _ _ _ _ heq1
        obtain ⟨l2, hp, rfl⟩ := appendIfKey_lookup _ _ _ _ heq2
        exact ih _ _ p' s' h (EdgeInv_append_pair preds succs name sc l l2 hs hp hinv)

theorem edgesGo_inv :
    ∀ (l : List (String × List Instr)) (preds succs preds' succs' : Edges),
      edgesGo l preds succs = some (preds', succs') →
      EdgeInv preds succs → EdgeInv preds' succs' := by
  intro l
  induction l with
  | nil =>
    intro preds succs p' s' h hinv
    cases h
    exact hinv
  | cons hd tl ih =>
    intro preds succs p' s' h hinv
    obtain ⟨name, block⟩ := hd
    simp only [edgesGo] at h
    split at h
    · exact ih _ _ _ _ h hinv
    · split at h
      · exact absurd h (by simp)
      · split at h
        · exact absurd h (by simp)
        · rename_i preds1 succs1 heqf
          exact ih _ _ _ _ h (edgesFold_inv name _ preds succs preds1 succs1 heqf hinv)

theorem initEdges_lookup (bm : List (String × List Instr)) (a : String) :
    lookupEdges (bm.map (fun p => (p.1, []))) a = [] := by
  induction bm with
  | nil => rfl
  | cons hd tl ih =>
    by_cases h : hd.1 = a
    · simp [lookupEdges_eq, List.map_cons, lookupA_cons, h]
    · simp only [List.map_cons, lookupEdges_eq, lookupA_cons]
      rw [if_neg h]
      exact ih

/-- C3 (amended): with `remove_extra_jmps=False`, in the CFG returned by
`construct_cfg` every block is non-empty and ends in a terminator except
that the synthesized entry block (which can only be the first) may be
empty, and the predecessor and successor maps are mutual inverses for
every pair of names. -/
theorem C3_cfg_invariants (instrs : List Instr)
    (bm : List (String × List Instr)) (preds succs : Edges)
    (h : construct_cfg instrs false false = some (bm, preds, succs)) :
    (∀ p ∈ bm, p.2 = [] ∨ EndsInTerminator p.2) ∧
    (∀ p ∈ bm.tail, p.2 ≠ []) ∧
    (∀ a b, b ∈ lookupEdges succs a ↔ a ∈ lookupEdges preds b) := by
  simp only [construct_cfg, Bool.false_eq_true, if_false] at h
  split at h
  · exact absurd h (by simp)
  · rename_i bm0 heq0
    split at h
    · exact absurd h (by simp)
    · rename_i bm1 heq1
      split at h
      · exact absurd h (by simp)
      · rename_i bm2 heq2
        split at h
        · exact absurd h (by simp)
        · rename_i preds0 succs0 heq3
          simp only [Option.some.injEq, Prod.mk.injEq] at h
          obtain ⟨rfl, rfl, rfl⟩ := h
          have heq1' : add_terminatorsGo (keysOf bm0) 0 bm0 = some bm1 := heq1
          have hterm := add_terminatorsGo_terminated (keysOf bm0) bm0 0 bm1 heq1'
          have hinv0 : EdgeInv
              (bm2.map (fun p => (p.1, []))) (bm2.map (fun p => (p.1, []))) := by
            intro a b
            rw [initEdges_lookup, initEdges_lookup]
            simp
          have heq3' : edgesGo bm2 (bm2.map (fun p => (p.1, [])))
              (bm2.map (fun p => (p.1, []))) = some (preds0, succs0) := heq3
          refine ⟨?_, ?_, edgesGo_inv bm2 _ _ preds0 succs0 heq3' hinv0⟩
          · intro p hp
            rcases add_entry_cases bm1 bm2 heq2 with hc | hc
            · right
              exact (hterm p (by rw [← hc]; exact hp)).2
            · rw [hc] at hp
              rcases List.mem_cons.mp hp with hph | hph
              · left
                rw [hph]
              · right
                exact (hterm p hph).2
          · intro p hp
            rcases add_entry_cases bm1 bm2 heq2 with hc | hc
            · rw [hc] at hp
              exact (hterm p (List.mem_of_mem_tail hp)).1
            · rw [hc, List.tail_cons] at hp
              exact (hterm p hp).1

theorem C3amd_isSome :
    (construct_cfg [constInstr] false false).isSome = true := rfl

/-- Witness for the amended C3 on a single `const` instruction. -/
theorem C3_cfg_invariants_witness :
    ∃ r, construct_cfg [constInstr] false false = some r ∧
      ((∀ p ∈ r.1, p.2 = [] ∨ EndsInTerminator p.2) ∧
       (∀ p ∈ r.1.tail, p.2 ≠ []) ∧
       (∀ a b, b ∈ lookupEdges r.2.2 a ↔ a ∈ lookupEdges r.2.1 b)) :=
  ⟨Option.get _ C3amd_isSome, (Option.some_get C3amd_isSome).symm,
    C3_cfg_invariants [constInstr] _ _ _ (Option.some_get C3amd_isSome).symm⟩

theorem flatten_form_blocksAux :
    ∀ (instrs cur : List Instr), (form_blocksAux instrs cur).flatten = cur ++ instrs := by
  intro instrs
  induction instrs with
  | nil =>
    intro cur
    cases cur <;> simp [form_blocksAux]
  | cons i rest ih =>
    intro cur
    rw [form_blocksAux]
    cases hop : i.op with
    | some op =>
      simp only []
      by_cases ht : op ∈ TERMINATOR_OPS
      · simp only [if_pos ht, List.flatten_cons, ih []]
        simp
      · rw [if_neg ht, ih (cur ++ [i])]
        simp
    | none =>
      simp only []
      by_cases hc : cur.isEmpty
      · have hce : cur = [] := List.isEmpty_iff.mp hc
        rw [if_pos hc, ih [i], hce]
        simp
      · rw [if_neg hc]
        simp only [List.flatten_cons, ih [i]]
        simp

theorem mem_of_form_blocks (instrs : List Instr) (blk : List Instr)
    (hblk : blk ∈ form_blocks instrs) (j : Instr) (hj : j ∈ blk) :
    j ∈ instrs := by
  have : j ∈ (form_blocks instrs).flatten := List.mem_flatten.mpr ⟨blk, hblk, hj⟩
  rw [form_blocks, flatten_form_blocksAux] at this
  simpa using this

theorem mem_setVal {α : Type} :
    ∀ (m : List (String × α)) (k : String) (v : α) (p : String × α),
      p ∈ setVal m k v → p ∈ m ∨ p = (k, v) := by
  intro m
  induction m with
  | nil =>
    intro k v p hp
    simp only [setVal] at hp
    simp at hp
    right
    exact hp
  | cons hd tl ih =>
    intro k v p hp
    obtain ⟨k', v'⟩ := hd
    simp only [setVal] at hp
    split at hp
    · rcases List.mem_cons.mp hp with h1 | h1
      · right
        exact h1
      · left
        exact List.mem_cons_of_mem _ h1
    · rcases List.mem_cons.mp hp with h1 | h1
      · left
        exact h1 ▸ List.mem_cons_self _ _
      · rcases ih k v p h1 with h2 | h2
        · left
          exact List.mem_cons_of_mem _ h2
        · right
          exact h2

theorem generate_block_mapAux_mem :
    ∀ (blocks : List (List Instr)) (acc out : List (String × List Instr)),
      generate_block_mapAux blocks acc = some out →
      ∀ name blk, (name, blk) ∈ out → ∀ j ∈ blk,
        (∃ b ∈ blocks, j ∈ b) ∨ ∃ nm blk2, (nm, blk2) ∈ acc ∧ j ∈ blk2 := by
  intro blocks
  induction blocks with
  | nil =>
    intro acc out h name blk hmem j hj
    cases h
    exact Or.inr ⟨name, blk, hmem, hj⟩
  | cons block rest ih =>
    intro acc out h name blk hmem j hj
    simp only [generate_block_mapAux] at h
    split at h
    · exact absurd h (by simp)
    · rename_i b0 btail
      split at h
      · rename_i lbl hlbl
        rcases ih _ _ h name blk hmem j hj with hl | ⟨nm, blk2, hmem2, hj2⟩
        · obtain ⟨b, hb, hjb⟩ := hl
          exact Or.inl ⟨b, List.mem_cons_of_mem _ hb, hjb⟩
        · rcases mem_setVal _ _ _ _ hmem2 with h2 | h2
          · exact Or.inr ⟨nm, blk2, h2, hj2⟩
          · left
            refine ⟨b0 :: btail, List.mem_cons_self _ _, ?_⟩
            have : blk2 = btail := congrArg Prod.snd h2
            rw [this] at hj2
            exact List.mem_cons_of_mem _ hj2
      · rcases ih _ _ h name blk hmem j hj with hl | ⟨nm, blk2, hmem2, hj2⟩
        · obtain ⟨b, hb, hjb⟩ := hl
          exact Or.inl ⟨b, List.mem_cons_of_mem _ hb, hjb⟩
        · rcases mem_setVal _ _ _ _ hmem2 with h2 | h2
          · exact Or.inr ⟨nm, blk2, h2, hj2⟩
          · left
            refine ⟨b0 :: btail, List.mem_cons_self _ _, ?_⟩
            have : blk2 = b0 :: btail := congrArg Prod.snd h2
            rw [← this]
            exact hj2

theorem terminatorFor_labels (keys : List String) (i : Nat) (t : Instr)
    (h : terminatorFor keys i = some t) :
    ∀ l ∈ t.labels, l ∈ keys := by
  rw [terminatorFor] at h
  split at h
  · cases h
    simp
  · split at h
    · rename_i dest hdest
      cases h
      intro l hl
      simp only [List.mem_singleton] at hl
      rw [hl]
      exact List.get?_mem hdest
    · exact absurd h (by simp)

theorem add_terminatorsGo_keys (keys : List String) :
    ∀ (l : List (String × List Instr)) (i : Nat) (out : List (String × List Instr)),
      add_terminatorsGo keys i l = some out → keysOf out = keysOf l := by
  intro l
  induction l with
  | nil =>
    intro i out h
    cases h
    rfl
  | cons hd tl ih =>
    intro i out h
    obtain ⟨name, block⟩ := hd
    simp only [add_terminatorsGo] at h
    split at h
    · split at h
      · rename_i r hr
        cases h
        simp only [keysOf, List.map_cons]
        rw [show List.map Prod.fst r = keysOf r from rfl, ih (i + 1) r hr]
        rfl
      · exact absurd h (by simp)
    · exact absurd h (by simp)

theorem add_terminatorsGo_mem (keys : List String) :
    ∀ (l : List (String × List Instr)) (i : Nat) (out : List (String × List Instr)),
      add_terminatorsGo keys i l = some out →
      ∀ name blk, (name, blk) ∈ out →
        ∃ blk0, (name, blk0) ∈ l ∧ ∀ j ∈ blk, j ∈ blk0 ∨
          ∃ i2 t, terminatorFor keys i2 = some t ∧ j = t := by
  intro l
  induction l with
  | nil =>
    intro i out h name blk hmem
    cases h
    simp at hmem
  | cons hd tl ih =>
    intro i out h name blk hmem
    obtain ⟨name0, block⟩ := hd
    simp only [add_terminatorsGo] at h
    split at h
    case h_2 => exact absurd h (by simp)
    case h_1 nb heq =>
      split at h
      case h_2 => exact absurd h (by simp)
      case h_1 r hr =>
        cases h
        rcases List.mem_cons.mp hmem with h1 | h1
        · have hname : name = name0 := congrArg Prod.fst h1
          have hblk : blk = nb := congrArg Prod.snd h1
          subst hname
          subst hblk
          refine ⟨block, List.mem_cons_self _ _, ?_⟩
          intro j hj
          split at heq
          · split at heq
            · rename_i t ht
              cases heq
              right
              refine ⟨i, t, ht, ?_⟩
              simpa using hj
            · exact absurd heq (by simp)
          · split at heq
            · exact absurd heq (by simp)
            · split at heq
              · cases heq
                exact Or.inl hj
              · split at heq
                · rename_i t ht
                  cases heq
                  rcases List.mem_append.mp hj with hj1 | hj1
                  · exact Or.inl hj1
                  · right
                    exact ⟨i, t, ht, by simpa using hj1⟩
                · exact absurd heq (by simp)
        · obtain ⟨blk0, hblk0, hprop⟩ := ih (i + 1) r hr name blk h1
          exact ⟨blk0, List.mem_cons_of_mem _ hblk0, hprop⟩

theorem successors_sub (instr : Instr) (ss : List String)
    (h : successors instr = some ss) : ss = instr.labels ∨ ss = [] := by
  rw [successors] at h
  split at h
  · split at h
    · cases h
      exact Or.inl rfl
    · split at h
      · cases h
        exact Or.inr rfl
      · exact absurd h (by simp)
  · exact absurd h (by simp)

theorem edgesFold_untouched (n name : String) (hne : name ≠ n) :
    ∀ (ss : List String) (preds succs p2 s2 : Edges),
      edgesFold name ss preds succs = some (p2, s2) → n ∉ ss →
      lookupA p2 n = lookupA preds n ∧ lookupA s2 n = lookupA succs n := by
  intro ss
  induction ss with
  | nil =>
    intro preds succs p2 s2 h hn
    cases h
    exact ⟨rfl, rfl⟩
  | cons sc ss ih =>
    intro preds succs p2 s2 h hn
    simp only [edgesFold] at h
    split at h
    · exact absurd h (by simp)
    · rename_i succs1 heq1
      split at h
      · exact absurd h (by simp)
      · rename_i preds1 heq2
        obtain ⟨l, hs, rfl⟩ := appendIfKey_lookup _ _ _ _ heq1
        obtain ⟨l2, hp, rfl⟩ := appendIfKey_lookup _ _ _ _ heq2
        have hnsc : n ≠ sc := fun hh => hn (by rw [hh]; exact List.mem_cons_self _ _)
        have hrec := ih _ _ p2 s2 h (fun hh => hn (List.mem_cons_of_mem _ hh))
        refine ⟨?_, ?_⟩
        · rw [hrec.1, lookupA_setVal_ne _ _ _ _ hnsc]
        · rw [hrec.2, lookupA_setVal_ne _ _ _ _ (fun hh => hne hh.symm)]

theorem edgesGo_untouched (n : String) :
    ∀ (l : List (String × List Instr)) (preds succs p2 s2 : Edges),
      edgesGo l preds succs = some (p2, s2) →
      (∀ p ∈ l, p.1 = n → p.2 = []) →
      (∀ p ∈ l, ∀ last, p.2.getLast? = some last →
        ∀ ss, successors last = some ss → n ∉ ss) →
      lookupA p2 n = lookupA preds n ∧ lookupA s2 n = lookupA succs n := by
  intro l
  induction l with
  | nil =>
    intro preds succs p2 s2 h _ _
    cases h
    exact ⟨rfl, rfl⟩
  | cons hd tl ih =>
    intro preds succs p2 s2 h hkey htgt
    obtain ⟨name, block⟩ := hd
    simp only [edgesGo] at h
    split at h
    · exact ih _ _ p2 s2 h (fun p hp => hkey p (List.mem_cons_of_mem _ hp))
        (fun p hp => htgt p (List.mem_cons_of_mem _ hp))
    · rename_i last hlast
      split at h
      · exact absurd h (by simp)
      · rename_i ss hss
        split at h
        · exact absurd h (by simp)
        · rename_i preds1 succs1 heqf
          have hname : name ≠ n := by
            intro hh
            have hb : block = [] :=
              hkey (name, block) (List.mem_cons_self _ _) hh
            rw [hb] at hlast
            exact absurd hlast (by simp)
          have hnss : n ∉ ss :=
            htgt (name, block) (List.mem_cons_self _ _) last hlast ss hss
          have h1 := edgesFold_untouched n name hname ss preds succs
            preds1 succs1 heqf hnss
          have h2 := ih _ _ p2 s2 h
            (fun p hp => hkey p (List.mem_cons_of_mem _ hp))
            (fun p hp => htgt p (List.mem_cons_of_mem _ hp))
          exact ⟨h2.1.trans h1.1, h2.2.trans h1.2⟩

/-- C8 (amended): when `construct_cfg` (with `remove_extra_jmps=False`)
synthesizes an entry block — the returned map starts with an empty block,
which only `add_entry` produces — and no input instruction references the
synthesized name, that block has no predecessors and also NO successors:
the synthesized block is empty and `edges` skips empty blocks, so the
computed successor map never records a transfer to the old first block. -/
theorem C8_entry_synthesis (instrs : List Instr)
    (bm rest : List (String × List Instr)) (preds succs : Edges) (n : String)
    (h : construct_cfg instrs false false = some (bm, preds, succs))
    (hbm : bm = (n, []) :: rest)
    (href : ∀ i ∈ instrs, n ∉ i.labels) :
    lookupA preds n = some [] ∧ lookupA succs n = some [] := by
  simp only [construct_cfg, Bool.false_eq_true, if_false] at h
  split at h
  · exact absurd h (by simp)
  · rename_i bm0 heq0
    split at h
    · exact absurd h (by simp)
    · rename_i bm1 heq1
      split at h
      · exact absurd h (by simp)
      · rename_i bm2 heq2
        split at h
        · exact absurd h (by simp)
        · rename_i preds0 succs0 heq3
          simp only [Option.some.injEq, Prod.mk.injEq] at h
          obtain ⟨rfl, rfl, rfl⟩ := h
          have heq1' : add_terminatorsGo (keysOf bm0) 0 bm0 = some bm1 := heq1
          have hterm := add_terminatorsGo_terminated (keysOf bm0) bm0 0 bm1 heq1'
          rcases add_entry_cases bm1 bm2 heq2 with hc | hc
          · exfalso
            have hmem : (n, ([] : List Instr)) ∈ bm1 := by
              rw [← hc, hbm]
              exact List.mem_cons_self _ _
            exact (hterm _ hmem).1 rfl
          · rw [hbm] at hc
            simp only [List.cons.injEq, Prod.mk.injEq, and_true, true_and] at hc
            obtain ⟨hnf, hrest⟩ := hc
            have hfresh : n ∉ keysOf bm1 := by
              rw [hnf]
              exact fresh_not_mem "entry" (keysOf bm1)
            have hkeys01 : keysOf bm1 = keysOf bm0 :=
              add_terminatorsGo_keys (keysOf bm0) bm0 0 bm1 heq1'
            have heq0' : generate_block_mapAux (form_blocks instrs) [] = some bm0 :=
              heq0
            have hlab : ∀ p ∈ bm1, ∀ j ∈ p.2, n ∉ j.labels := by
              intro p hp j hj
              obtain ⟨name, blk⟩ := p
              obtain ⟨blk0, hblk0, hprov⟩ :=
                add_terminatorsGo_mem (keysOf bm0) bm0 0 bm1 heq1' name blk hp
              rcases hprov j hj with hj0 | ⟨i2, t, ht, hjt⟩
              · rcases generate_block_mapAux_mem (form_blocks instrs) [] bm0
                    heq0' name blk0 hblk0 j hj0 with ⟨b, hb, hjb⟩ | ⟨nm, blk2, hacc, -⟩
                · exact href j (mem_of_form_blocks instrs b hb j hjb)
                · simp at hacc
              · intro hnl
                rw [hjt] at hnl
                have hmem := terminatorFor_labels (keysOf bm0) i2 t ht n hnl
                rw [← hkeys01] at hmem
                exact hfresh hmem
            have hbm2 : bm2 = (n, []) :: bm1 := by rw [hbm, hrest]
            have hkey : ∀ p ∈ bm2, p.1 = n → p.2 = [] := by
              intro p hp hpn
              rw [hbm2] at hp
              rcases List.mem_cons.mp hp with h1 | h1
              · rw [h1]
              · exfalso
                apply hfresh
                rw [← hpn]
                exact List.mem_map.mpr ⟨p, h1, rfl⟩
            have htgt : ∀ p ∈ bm2, ∀ last, p.2.getLast? = some last →
                ∀ ss, successors last = some ss → n ∉ ss := by
              intro p hp last hlast ss hss
              rw [hbm2] at hp
              rcases List.mem_cons.mp hp with h1 | h1
              · rw [h1] at hlast
                exact absurd hlast (by simp)
              · rcases successors_sub last ss hss with h2 | h2
                · rw [h2]
                  exact hlab p h1 last (List.mem_of_getLast?_eq_some hlast)
                · rw [h2]
                  simp
            have heq3' : edgesGo bm2 (bm2.map (fun p => (p.1, [])))
                (bm2.map (fun p => (p.1, []))) = some (preds0, succs0) := heq3
            have huntouched := edgesGo_untouched n bm2 _ _ preds0 succs0
              heq3' hkey htgt
            have hinit : lookupA (bm2.map (fun p => (p.1, ([] : List String)))) n
                = some [] := by
              rw [hbm2]
              simp [lookupA_cons]
            exact ⟨huntouched.1.trans hinit, huntouched.2.trans hinit⟩

theorem C8amd_isSome :
    (construct_cfg [labelA, jmpA] false false).isSome = true := rfl

/-- Witness for the amended C8 on `[label A, jmp A]`. -/
theorem C8_entry_synthesis_witness :
    ∃ r, construct_cfg [labelA, jmpA] false false = some r ∧
      r.1 = ("entry1", []) :: [("A", [jmpA])] ∧
      (∀ i ∈ [labelA, jmpA], "entry1" ∉ i.labels) ∧
      lookupA r.2.1 "entry1" = some [] ∧ lookupA r.2.2 "entry1" = some [] := by
  have H := C8_entry_synthesis [labelA, jmpA]
    (Option.get _ C8amd_isSome).1 [("A", [jmpA])]
    (Option.get _ C8amd_isSome).2.1 (Option.get _ C8amd_isSome).2.2 "entry1"
    (Option.some_get C8amd_isSome).symm rfl (by decide)
  exact ⟨Option.get _ C8amd_isSome, (Option.some_get C8amd_isSome).symm,
    rfl, by decide, H.1, H.2⟩

/-- A "real" instruction: has an `op` that is not a terminator (not a
label marker and not `br`/`jmp`/`ret`). -/
def isRealInstr (i : Instr) : Bool :=
  match i.op with
  | some op => !(TERMINATOR_OPS.contains op)
  | none => false

theorem isRealInstr_term_false (i : Instr) (op : String)
    (hop : i.op = some op) (hmem : op ∈ TERMINATOR_OPS) :
    isRealInstr i = false := by
  rw [isRealInstr, hop]
  simp [List.contains, List.elem_eq_mem, hmem]

/-- The default-options run of the pipeline on the duplicate-label
input. -/
def C6cexRun : Option (List (String × List Instr) × Edges × Edges) :=
  construct_cfg [labelA2, cInstr1, labelA2, cInstr2] false true

theorem C6cex_isSome : C6cexRun.isSome = true := rfl

def C6cexOut : Option (List Instr) :=
  reassemble (C6cexRun.get C6cex_isSome).1

theorem C6cex_re_isSome : C6cexOut.isSome = true := rfl

/-- C6 counterexample: on `[label A, const v1, label A, const v2]` the
default pipeline RETURNS — yet the result does not contain every
non-terminator, non-label instruction of the input: `generate_block_map`
names both blocks `A` and the dict assignment silently overwrites the
first, so `const v1` vanishes while `reassemble(construct_cfg(…))`
returns `[label A, const v2, ret]` with real instructions `[const v2]`
instead of `[const v1, const v2]`. -/
theorem C6_counterexample :
    ∃ r o, construct_cfg [labelA2, cInstr1, labelA2, cInstr2] false true
        = some r ∧
      reassemble r.1 = some o ∧
      o.filter isRealInstr = [cInstr2] ∧
      [labelA2, cInstr1, labelA2, cInstr2].filter isRealInstr
        = [cInstr1, cInstr2] :=
  by
  refine ⟨C6cexRun.get C6cex_isSome, C6cexOut.get C6cex_re_isSome,
    ?_, ?_, ?_, ?_⟩
  · exact (Option.some_get C6cex_isSome).symm
  · exact (Option.some_get C6cex_re_isSome).symm
  · rfl
  · rfl

theorem reassembleBlock_filter :
    ∀ (block r : List Instr), reassembleBlock block = some r →
      r.filter isRealInstr = block.filter isRealInstr := by
  intro block
  induction block with
  | nil =>
    intro r h
    cases h
    rfl
  | cons i rest ih =>
    intro r h
    simp only [reassembleBlock] at h
    split at h
    · exact absurd h (by simp)
    · rename_i op hop
      split at h
      · exact absurd h (by simp)
      · rename_i r2 hr2
        split at h
        · rename_i hjmp
          have hreal : isRealInstr i = false :=
            isRealInstr_term_false i op hop (by rw [hjmp]; decide)
          cases h
          rw [List.filter_cons, hreal]
          simp only [Bool.false_eq_true, if_false]
          rw [← ih r2 hr2]
          split
          · rename_i l0
            split
            · rfl
            · rw [List.filter_cons, hreal]
              simp
          · rfl
        · cases h
          rw [List.filter_cons, List.filter_cons, ih r2 hr2]
  

theorem reassemble_filter :
    ∀ (bm : List (String × List Instr)) (out : List Instr),
      reassemble bm = some out →
      out.filter isRealInstr = ((bm.map Prod.snd).flatten).filter isRealInstr := by
  intro bm
  induction bm with
  | nil =>
    intro out h
    cases h
    rfl
  | cons hd tl ih =>
    intro out h
    obtain ⟨name, block⟩ := hd
    simp only [reassemble] at h
    split at h
    · rename_i bi ri hbi hri
      cases h
      simp only [List.map_cons, List.flatten_cons, List.filter_append]
      rw [reassembleBlock_filter block bi hbi, ih ri hri]
      congr 1
      split
      · rfl
      · simp [List.filter_cons, isRealInstr]
    · exact absurd h (by simp)

theorem add_terminatorsGo_flatten (keys : List String) :
    ∀ (l : List (String × List Instr)) (i : Nat)
      (out : List (String × List Instr)),
      add_terminatorsGo keys i l = some out →
      ((out.map Prod.snd).flatten).filter isRealInstr
        = ((l.map Prod.snd).flatten).filter isRealInstr := by
  intro l
  induction l with
  | nil =>
    intro i out h
    cases h
    rfl
  | cons hd tl ih =>
    intro i out h
    obtain ⟨name, block⟩ := hd
    simp only [add_terminatorsGo] at h
    split at h
    case h_2 => exact absurd h (by simp)
    case h_1 nb heq =>
      split at h
      case h_2 => exact absurd h (by simp)
      case h_1 r hr =>
        cases h
        simp only [List.map_cons, List.flatten_cons, List.filter_append]
        rw [ih (i + 1) r hr]
        congr 1
        split at heq
        · rename_i hlast
          split at heq
          · rename_i t ht
            cases heq
            obtain ⟨op, hop, hmem⟩ := terminatorFor_terminated keys i t ht
            have hblock : block = [] := by
              cases block with
              | nil => rfl
              | cons b bs => exact absurd hlast (by simp)
            rw [hblock]
            simp [List.filter_cons, isRealInstr_term_false t op hop hmem]
          · exact absurd heq (by simp)
        · split at heq
          · exact absurd heq (by simp)
          · split at heq
            · cases heq
              rfl
            · split at heq
              · rename_i t ht
                cases heq
                obtain ⟨op2, hop2, hmem2⟩ := terminatorFor_terminated keys i t ht
                rw [List.filter_append]
                simp [List.filter_cons, isRealInstr_term_false t op2 hop2 hmem2]
              · exact absurd heq (by simp)

theorem setVal_append {α : Type} :
    ∀ (m : List (String × α)) (k : String) (v : α),
      k ∉ keysOf m → setVal m k v = m ++ [(k, v)] := by
  intro m
  induction m with
  | nil =>
    intro k v _
    rfl
  | cons hd tl ih =>
    intro k v hk
    obtain ⟨k2, v2⟩ := hd
    have hne : k2 ≠ k := by
      intro hh
      exact hk (by rw [← hh]; exact List.mem_map.mpr ⟨(k2, v2), List.mem_cons_self _ _, rfl⟩)
    simp only [setVal, if_neg hne]
    rw [ih k v (fun hh => hk (List.mem_map.mpr
      (by obtain ⟨p, hp, he⟩ := List.mem_map.mp hh; exact ⟨p, List.mem_cons_of_mem _ hp, he⟩)))]
    rfl

theorem startsWith_b_append (x : String) :
    startsWith_b ("_b" ++ x) = true := by
  have hd : ("_b" ++ x).data = '_' :: 'b' :: x.data := by
    rw [String.data_append "_b" x]
    rfl
  rw [startsWith_b, hd]
  rfl

theorem startsWith_b_fresh (names : List String) :
    startsWith_b (fresh "_b" names) = true := by
  rw [fresh]
  split
  · exact startsWith_b_append _
  · rfl

theorem form_blocksAux_heads :
    ∀ (instrs cur : List Instr),
      List.Sublist ((form_blocksAux instrs cur).filterMap List.head?)
        (cur ++ instrs) := by
  intro instrs
  induction instrs with
  | nil =>
    intro cur
    cases cur with
    | nil => simp [form_blocksAux]
    | cons c0 cur2 =>
      simp only [form_blocksAux, List.isEmpty_cons, List.append_nil]
      simp only [Bool.false_eq_true, if_false, List.filterMap_cons, List.head?_cons]
      exact List.cons_sublist_cons.mpr (List.nil_sublist cur2)
  | cons i rest ih =>
    intro cur
    rw [form_blocksAux]
    cases hop : i.op with
    | some op =>
      simp only []
      by_cases ht : op ∈ TERMINATOR_OPS
      · rw [if_pos ht]
        cases cur with
        | nil =>
          simp only [List.nil_append, List.filterMap_cons, List.head?_cons]
          exact List.cons_sublist_cons.mpr (by simpa using ih [])
        | cons c0 cur2 =>
          simp only [List.cons_append, List.filterMap_cons, List.head?_cons]
          refine List.cons_sublist_cons.mpr ?_
          have h1 : List.Sublist ((form_blocksAux rest []).filterMap List.head?)
              rest := by
            simpa using ih []
          exact h1.trans ((List.sublist_cons_self i rest).trans
            (List.sublist_append_right cur2 (i :: rest)))
      · rw [if_neg ht]
        have h1 := ih (cur ++ [i])
        rw [List.append_assoc] at h1
        simpa using h1
    | none =>
      simp only []
      by_cases hc : cur.isEmpty
      · rw [if_pos hc]
        have hce : cur = [] := List.isEmpty_iff.mp hc
        subst hce
        simpa using ih [i]
      · rw [if_neg hc]
        cases cur with
        | nil => simp at hc
        | cons c0 cur2 =>
          simp only [List.cons_append, List.filterMap_cons, List.head?_cons]
          refine List.cons_sublist_cons.mpr ?_
          have h1 : List.Sublist ((form_blocksAux rest [i]).filterMap List.head?)
              (i :: rest) := by
            simpa using ih [i]
          exact h1.trans (List.sublist_append_right cur2 (i :: rest))

theorem form_blocks_labels (instrs : List Instr) :
    List.Sublist
      ((form_blocks instrs).filterMap (fun blk => blk.head?.bind Instr.label))
      (instrs.filterMap Instr.label) := by
  have h1 : List.Sublist ((form_blocks instrs).filterMap List.head?) instrs := by
    simpa using form_blocksAux_heads instrs []
  have h2 := h1.filterMap Instr.label
  rw [List.filterMap_filterMap] at h2
  exact h2

theorem generate_block_mapAux_flatten :
    ∀ (blocks : List (List Instr)) (acc out : List (String × List Instr)),
      generate_block_mapAux blocks acc = some out →
      (∀ blk ∈ blocks, ∀ b0 btail, blk = b0 :: btail → ∀ l, b0.label = some l →
        startsWith_b l = false ∧ l ∉ keysOf acc ∧ isRealInstr b0 = false) →
      ((blocks.filterMap (fun blk => blk.head?.bind Instr.label))).Nodup →
      ((out.map Prod.snd).flatten).filter isRealInstr
        = ((acc.map Prod.snd).flatten).filter isRealInstr
          ++ (blocks.flatten).filter isRealInstr := by
  intro blocks
  induction blocks with
  | nil =>
    intro acc out h _ _
    cases h
    simp
  | cons blk rest ih =>
    intro acc out h hhyp hnodup
    simp only [generate_block_mapAux] at h
    split at h
    · exact absurd h (by simp)
    · rename_i b0 btail
      split at h
      · rename_i name hlbl
        obtain ⟨hsw, hnk, hreal⟩ :=
          hhyp (b0 :: btail) (List.mem_cons_self _ _) b0 btail rfl name hlbl
        rw [setVal_append acc name btail hnk] at h
        have hfm : ((b0 :: btail) :: rest).filterMap
            (fun blk => blk.head?.bind Instr.label)
            = name :: rest.filterMap (fun blk => blk.head?.bind Instr.label) := by
          simp [hlbl]
        rw [hfm] at hnodup
        obtain ⟨hnotin, hnodup2⟩ := List.nodup_cons.mp hnodup
        have hkeys : keysOf (acc ++ [(name, btail)]) = keysOf acc ++ [name] := by
          simp [keysOf]
        have hhyp2 : ∀ blk2 ∈ rest, ∀ c0 ctail, blk2 = c0 :: ctail →
            ∀ l, c0.label = some l →
            startsWith_b l = false ∧ l ∉ keysOf (acc ++ [(name, btail)]) ∧
              isRealInstr c0 = false := by
          intro blk2 hblk2 c0 ctail hblk2e l hl
          obtain ⟨h1, h2, h3⟩ :=
            hhyp blk2 (List.mem_cons_of_mem _ hblk2) c0 ctail hblk2e l hl
          refine ⟨h1, ?_, h3⟩
          rw [hkeys]
          intro hmem
          rcases List.mem_append.mp hmem with hm | hm
          · exact h2 hm
          · apply hnotin
            have hmem2 : l ∈ rest.filterMap
                (fun blk => blk.head?.bind Instr.label) :=
              List.mem_filterMap.mpr ⟨blk2, hblk2, by rw [hblk2e]; simp [hl]⟩
            rwa [List.mem_singleton.mp hm] at hmem2
        have hrec := ih (acc ++ [(name, btail)]) out h hhyp2 hnodup2
        rw [hrec]
        simp [List.filter_append, List.filter_cons, hreal, List.append_assoc]
      · rename_i hlblnone
        have hfreshmem := fresh_not_mem "_b" (keysOf acc)
        rw [setVal_append acc _ _ hfreshmem] at h
        have hfm : ((b0 :: btail) :: rest).filterMap
            (fun blk => blk.head?.bind Instr.label)
            = rest.filterMap (fun blk => blk.head?.bind Instr.label) := by
          simp [hlblnone]
        rw [hfm] at hnodup
        have hkeys : keysOf (acc ++ [(fresh "_b" (keysOf acc), b0 :: btail)])
            = keysOf acc ++ [fresh "_b" (keysOf acc)] := by
          simp [keysOf]
        have hhyp2 : ∀ blk2 ∈ rest, ∀ c0 ctail, blk2 = c0 :: ctail →
            ∀ l, c0.label = some l →
            startsWith_b l = false ∧
              l ∉ keysOf (acc ++ [(fresh "_b" (keysOf acc), b0 :: btail)]) ∧
              isRealInstr c0 = false := by
          intro blk2 hblk2 c0 ctail hblk2e l hl
          obtain ⟨h1, h2, h3⟩ :=
            hhyp blk2 (List.mem_cons_of_mem _ hblk2) c0 ctail hblk2e l hl
          refine ⟨h1, ?_, h3⟩
          rw [hkeys]
          intro hmem
          rcases List.mem_append.mp hmem with hm | hm
          · exact h2 hm
          · rw [List.mem_singleton.mp hm] at h1
            rw [startsWith_b_fresh] at h1
            exact absurd h1 (by simp)
        have hrec := ih _ out h hhyp2 hnodup
        rw [hrec]
        simp only [List.map_append, List.flatten_append, List.map_cons,
          List.map_nil, List.flatten_cons, List.flatten_nil, List.append_nil,
          List.filter_append, List.append_assoc]

/-- C6 (amended): with `remove_extra_jmps=False`, whenever the input's
labels are pairwise distinct, no label starts with `_b`, and labelled
instructions are pure label markers (no `op`), reassembling the
constructed CFG preserves exactly the non-terminator non-label
instructions of the input, in the input order. -/
theorem C6_reassemble_preserves (instrs : List Instr)
    (bm : List (String × List Instr)) (preds succs : Edges) (out : List Instr)
    (hlbl : ∀ i ∈ instrs, ∀ l, i.label = some l →
      startsWith_b l = false ∧ i.op = none)
    (hnodup : (instrs.filterMap Instr.label).Nodup)
    (h : construct_cfg instrs false false = some (bm, preds, succs))
    (hre : reassemble bm = some out) :
    out.filter isRealInstr = instrs.filter isRealInstr := by
  simp only [construct_cfg, Bool.false_eq_true, if_false] at h
  split at h
  · exact absurd h (by simp)
  · rename_i bm0 heq0
    split at h
    · exact absurd h (by simp)
    · rename_i bm1 heq1
      split at h
      · exact absurd h (by simp)
      · rename_i bm2 heq2
        split at h
        · exact absurd h (by simp)
        · rename_i preds0 succs0 heq3
          simp only [Option.some.injEq, Prod.mk.injEq] at h
          obtain ⟨rfl, rfl, rfl⟩ := h
          rw [reassemble_filter bm2 out hre]
          have hflat2 : ((bm2.map Prod.snd).flatten).filter isRealInstr
              = ((bm1.map Prod.snd).flatten).filter isRealInstr := by
            rcases add_entry_cases bm1 bm2 heq2 with hc | hc
            · rw [hc]
            · rw [hc]
              simp
          rw [hflat2]
          have heq1' : add_terminatorsGo (keysOf bm0) 0 bm0 = some bm1 := heq1
          rw [add_terminatorsGo_flatten (keysOf bm0) bm0 0 bm1 heq1']
          have heq0' : generate_block_mapAux (form_blocks instrs) [] = some bm0 :=
            heq0
          have hh1 : ∀ blk ∈ form_blocks instrs, ∀ b0 btail, blk = b0 :: btail →
              ∀ l, b0.label = some l →
              startsWith_b l = false ∧
                l ∉ keysOf ([] : List (String × List Instr)) ∧
                isRealInstr b0 = false := by
            intro blk hblk b0 btail hblke l hl
            have hb0 : b0 ∈ instrs :=
              mem_of_form_blocks instrs blk hblk b0
                (by rw [hblke]; exact List.mem_cons_self _ _)
            obtain ⟨hs, hop⟩ := hlbl b0 hb0 l hl
            refine ⟨hs, by simp [keysOf], ?_⟩
            simp [isRealInstr, hop]
          have hh2 : ((form_blocks instrs).filterMap
              (fun blk => blk.head?.bind Instr.label)).Nodup :=
            (form_blocks_labels instrs).nodup hnodup
          rw [generate_block_mapAux_flatten (form_blocks instrs) [] bm0 heq0'
            hh1 hh2]
          rw [show (form_blocks instrs).flatten = instrs from by
            simpa using flatten_form_blocksAux instrs []]
          simp

theorem C6amd_isSome :
    (construct_cfg [constInstr] false false).isSome = true := rfl

theorem C6re_isSome :
    (reassemble (Option.get _ C6amd_isSome).1).isSome = true := rfl

/-- Witness for the amended C6 on a single `const` instruction. -/
theorem C6_reassemble_preserves_witness :
    ∃ r o, construct_cfg [constInstr] false false = some r ∧
      reassemble r.1 = some o ∧
      o.filter isRealInstr = [constInstr].filter isRealInstr := by
  refine ⟨Option.get _ C6amd_isSome, Option.get _ C6re_isSome,
    (Option.some_get C6amd_isSome).symm, (Option.some_get C6re_isSome).symm, ?_⟩
  refine C6_reassemble_preserves [constInstr] (Option.get _ C6amd_isSome).1
    (Option.get _ C6amd_isSome).2.1 (Option.get _ C6amd_isSome).2.2
    (Option.get _ C6re_isSome) ?_ ?_ (Option.some_get C6amd_isSome).symm
    (Option.some_get C6re_isSome).symm
  · intro i hi l hl
    simp only [List.mem_singleton] at hi
    rw [hi] at hl
    exact absurd hl (by simp [constInstr])
  · decide

end Bril
